import Mathlib

/-!
Verification of the webgraph query-execution core of the stract search engine.

The development shallowly embeds the Rust sources of
`crates/core/src/webgraph/` (shortest_path.rs, query/backlink.rs,
query/forwardlink.rs, query/group_by.rs, query/collector/group_sketch.rs)
into Lean:

* `BTreeMap<NodeID, u8>` is modelled as a sorted association list over `Nat`
  (`btInsert` keeps keys strictly increasing, mirroring the canonical ordered
  map; `btLookup` is `get`).
* `BinaryHeap<Reverse<(u8, NodeID)>>` is modelled as a list of pairs from
  which `popMin` removes a lexicographically least element; Rust's heap pops
  a least `(cost, node)` pair under `Reverse`, and entries comparing equal
  are identical pairs, so a deterministic minimum-removal is faithful.
* `u8` distances are modelled as `Nat` together with the proved invariant
  that every value the algorithm manipulates stays below `2^8`, so `Nat`
  arithmetic agrees with the `u8` arithmetic of the source.
* `f64` sort scores ordered by `f64::total_cmp` (a total order) are modelled
  as `Int`.
-/

/-! ### Ordered-map model of `BTreeMap<u128/u64, _>` -/

def btLookup {α : Type} : List (Nat × α) → Nat → Option α
  | [], _ => none
  | (k', v') :: rest, k => if k = k' then some v' else btLookup rest k

def btInsert {α : Type} : List (Nat × α) → Nat → α → List (Nat × α)
  | [], k, v => [(k, v)]
  | (k', v') :: rest, k, v =>
    if k < k' then (k, v) :: (k', v') :: rest
    else if k = k' then (k, v) :: rest
    else (k', v') :: btInsert rest k v

/-! ### Data model: `SmallEdge` (webgraph/mod.rs) -/

/-- A directed edge `from → to` with relation flags, the label-free variant
used by the shortest-path queries.  `NodeID` (`u128`) is modelled as `Nat`,
`RelFlags` (`u64` bitset) as `Nat`. -/
structure SmallEdge where
  from_ : Nat
  to_ : Nat
  rel_flags : Nat
deriving DecidableEq, Repr

/-! ### shortest_path.rs: `dijkstra_multi` -/

/-- Model of `u8::MAX`, the conceptual "infinite" distance of the source. -/
def U8MAX : Nat := 255

/-- Lexicographic order on `(cost, node)` pairs; `Reverse` of the derived
`Ord` on tuples makes Rust's `BinaryHeap` pop a least such pair. -/
def pairLe (a b : Nat × Nat) : Bool :=
  a.1 < b.1 || (a.1 = b.1 && a.2 ≤ b.2)

/-- Remove a lexicographically least `(cost, node)` entry from the queue,
modelling `BinaryHeap::pop` on `Reverse`-wrapped entries. -/
def popMin : List (Nat × Nat) → Option ((Nat × Nat) × List (Nat × Nat))
  | [] => none
  | x :: xs =>
    match popMin xs with
    | none => some (x, [])
    | some (m, rest) => if pairLe x m then some (x, xs) else some (m, x :: rest)

/-- One edge-relaxation of the inner `for edge in node_edges(v)` loop body:
if `cost + 1` improves on the recorded distance of the edge's endpoint, push
`(cost + 1, w)` and record the new distance (lines 91–99 of
shortest_path.rs). -/
def relax (edge_node : SmallEdge → Nat) (cost : Nat)
    (acc : List (Nat × Nat) × List (Nat × Nat)) (e : SmallEdge) :
    List (Nat × Nat) × List (Nat × Nat) :=
  let w := edge_node e
  if cost + 1 < (btLookup acc.2 w).getD U8MAX then
    ((cost + 1, w) :: acc.1, btInsert acc.2 w (cost + 1))
  else acc

/-- The `if let Some(max_dist) = max_dist { if cost > max_dist { ... } }`
test of lines 85–89. -/
def maxExceeded (max_dist : Option Nat) (cost : Nat) : Bool :=
  match max_dist with
  | some md => cost > md
  | none => false

/-- Result of one iteration of the `while let Some(state) = queue.pop()`
loop: either the loop has finished (queue empty, or the bound fired and the
function returned `distances`), or it continues in a new state. -/
inductive StepRes where
  | done (dist : List (Nat × Nat))
  | next (queue : List (Nat × Nat)) (dist : List (Nat × Nat))
deriving DecidableEq, Repr

/-- One iteration of the main loop of `dijkstra_multi` (lines 76–100):
pop a least entry; skip it if stale (`cost > *current_dist`); return the
distance map if the bound is exceeded; otherwise relax all outgoing edges. -/
def dstep (node_edges : Nat → List SmallEdge) (edge_node : SmallEdge → Nat)
    (max_dist : Option Nat) (queue dist : List (Nat × Nat)) : StepRes :=
  match popMin queue with
  | none => .done dist
  | some ((cost, v), rest) =>
    let current := (btLookup dist v).getD U8MAX
    if cost > current then .next rest dist
    else if maxExceeded max_dist cost then .done dist
    else
      let qd := (node_edges v).foldl (relax edge_node cost) (rest, dist)
      .next qd.1 qd.2

/-- Fuel-indexed unfolding of the main loop.  The fuel only serves to make
the recursion structural; `dijkstra_run_drains` below shows that a concrete,
computable amount of fuel always suffices for the loop to terminate on its
own, so the model is faithful to the (always-terminating) Rust loop. -/
def dijkstraLoop (node_edges : Nat → List SmallEdge) (edge_node : SmallEdge → Nat)
    (max_dist : Option Nat) : Nat → List (Nat × Nat) → List (Nat × Nat) → List (Nat × Nat)
  | 0, _, dist => dist
  | fuel + 1, queue, dist =>
    match dstep node_edges edge_node max_dist queue dist with
    | .done d => d
    | .next q' d' => dijkstraLoop node_edges edge_node max_dist fuel q' d'

/-- Initial state of `dijkstra_multi` (lines 67–74): every source is pushed
with cost `0` and recorded at distance `0`. -/
def initQueue (sources : List Nat) : List (Nat × Nat) :=
  sources.map (fun s => (0, s))

def initDist (sources : List Nat) : List (Nat × Nat) :=
  sources.foldl (fun m s => btInsert m s 0) []

/-- `dijkstra_multi` of shortest_path.rs, lines 57–103.  `node_edges`
abstracts the unlimited forward/backward link query issued per expanded
node, and `edge_node` the projection (`edge.to` or `edge.from`). -/
def dijkstra_multi (sources : List Nat) (node_edges : Nat → List SmallEdge)
    (edge_node : SmallEdge → Nat) (max_dist : Option Nat) (fuel : Nat) :
    List (Nat × Nat) :=
  dijkstraLoop node_edges edge_node max_dist fuel (initQueue sources) (initDist sources)

/-- `raw_distances` (lines 145–165): unbounded forward Dijkstra from one
source; the searcher's forward-link query is abstracted as `node_edges`. -/
def raw_distances (node_edges : Nat → List SmallEdge) (source : Nat) (fuel : Nat) :
    List (Nat × Nat) :=
  dijkstra_multi [source] node_edges (fun e => e.to_) none fuel

/-- `raw_distances_with_max` (lines 122–143): forward Dijkstra bounded by
`max_dist`. -/
def raw_distances_with_max (node_edges : Nat → List SmallEdge) (source : Nat)
    (max_dist : Nat) (fuel : Nat) : List (Nat × Nat) :=
  dijkstra_multi [source] node_edges (fun e => e.to_) (some max_dist) fuel

/-! ### Concrete test graphs -/

/-- The three-node graph `a→b→c` of the spec's test property, with
`a = 0`, `b = 1`, `c = 2`. -/
def gABC : Nat → List SmallEdge := fun v =>
  if v = 0 then [⟨0, 1, 0⟩]
  else if v = 1 then [⟨1, 2, 0⟩]
  else []

/-- A four-node chain `0→1→2→3`, used to exhibit the behaviour of the
bounded search at the boundary. -/
def gChain4 : Nat → List SmallEdge := fun v =>
  if v = 0 then [⟨0, 1, 0⟩]
  else if v = 1 then [⟨1, 2, 0⟩]
  else if v = 2 then [⟨2, 3, 0⟩]
  else []

/-- A chain `0→1→⋯→255` whose farthest node sits at hop distance `255`,
one beyond what an 8-bit distance strictly below `u8::MAX` can record. -/
def gChain256 : Nat → List SmallEdge := fun v =>
  if v < 255 then [⟨v, v + 1, 0⟩] else []

/-! ### Reachability at a given hop count -/

/-- There is a walk of length exactly `k` from some source in `S` to `v` in
the graph whose adjacency is `node_edges`/`edge_node`.  This is the
specification-side notion of hop distance used to judge `dijkstra_multi`. -/
inductive HasDist (g : Nat → List SmallEdge) (en : SmallEdge → Nat) (S : List Nat) :
    Nat → Nat → Prop where
  | src {s : Nat} : s ∈ S → HasDist g en S s 0
  | step {u k : Nat} {e : SmallEdge} : HasDist g en S u k → e ∈ g u →
      HasDist g en S (en e) (k + 1)

/-! ### Termination measure -/

/-- Potential of a distance map over a finite universe `V` of nodes: the sum
of recorded distances, absent nodes counting as `u8::MAX`.  Every relaxation
strictly decreases it. -/
def phi (V : Finset Nat) (d : List (Nat × Nat)) : Nat :=
  ∑ v ∈ V, (btLookup d v).getD U8MAX

/-! ### The loop invariant of `dijkstra_multi`

`T` is a ghost list of settled nodes: nodes that have been expanded at their
final distance.  The invariant is preserved by every loop iteration and, at
an empty queue, forces the distance map to be exactly the hop-distance map
on all nodes whose true distance fits in a `u8` strictly below `u8::MAX`. -/

structure DInv (g : Nat → List SmallEdge) (en : SmallEdge → Nat) (S : List Nat)
    (T : List Nat) (q d : List (Nat × Nat)) : Prop where
  sound : ∀ v dd, btLookup d v = some dd → HasDist g en S v dd
  dbound : ∀ v dd, btLookup d v = some dd → dd ≤ 254
  qbound : ∀ x ∈ q, x.1 ≤ 254
  srcZero : ∀ s ∈ S, btLookup d s = some 0
  qdist : ∀ x ∈ q, ∃ dd, btLookup d x.2 = some dd ∧ dd ≤ x.1
  settled_some : ∀ v ∈ T, ∃ dd, btLookup d v = some dd
  settled_min : ∀ v ∈ T, ∀ dd, btLookup d v = some dd → ∀ k, HasDist g en S v k → dd ≤ k
  settled_nbr : ∀ v ∈ T, ∀ dd, btLookup d v = some dd → ∀ e ∈ g v, dd + 1 ≤ 254 →
      ∃ dw, btLookup d (en e) = some dw ∧ dw ≤ dd + 1
  pending : ∀ v dd, btLookup d v = some dd → v ∉ T → (dd, v) ∈ q

/-- The states a run of the `dijkstra_multi` loop passes through, starting
from a given state: reflexive-transitive closure of continuing iterations. -/
inductive DReaches (g : Nat → List SmallEdge) (en : SmallEdge → Nat) (md : Option Nat) :
    List (Nat × Nat) → List (Nat × Nat) → List (Nat × Nat) → List (Nat × Nat) → Prop where
  | refl {q d : List (Nat × Nat)} : DReaches g en md q d q d
  | tail {q d q₁ d₁ q₂ d₂ : List (Nat × Nat)} : DReaches g en md q d q₁ d₁ →
      dstep g en md q₁ d₁ = .next q₂ d₂ → DReaches g en md q d q₂ d₂

/-! ### Once a node is expanded at its recorded distance, that distance is frozen -/

/-- All queue costs are at least `c` and node `v` is recorded at exactly `c`.
This holds right after `v` is expanded at cost `c` and is preserved by every
later iteration, so the recorded distance of an expanded node never changes. -/
def QLB (c v : Nat) (q d : List (Nat × Nat)) : Prop :=
  (∀ x ∈ q, c ≤ x.1) ∧ btLookup d v = some c

/-! ### Query-layer data model -/

/-- `EdgeLimit` (webgraph/mod.rs): the pagination contract of every link
query; its three variants are matched in each `tantivy_query`. -/
inductive EdgeLimit where
  | unlimited
  | limit (n : Nat)
  | limitAndOffset (limit offset : Nat)
deriving DecidableEq, Repr

/-- The schema fields used by the link queries (webgraph/schema.rs). -/
inductive FieldE where
  | fromId
  | toId
  | fromHostId
  | toHostId
  | relFlags
  | sortScore
deriving DecidableEq, Repr

/-- Shape of the tantivy query produced by `tantivy_query`: a raw
`LinksQuery`/`HostLinksQuery`, optionally wrapped in a `ShortCircuitQuery`
with a numeric threshold. -/
inductive TQuery where
  | links (node : Nat) (field : FieldE)
  | hostLinks (node : Nat) (field hostField : FieldE)
  | shortCircuit (inner : TQuery) (threshold : Nat)
deriving DecidableEq, Repr

/-- Modelled from the spec: `top_docs::DEDUPLICATION_BUFFER`, the fixed
overfetch constant of the top-docs collector (query/collector/top_docs.rs is
not in scope).  The spec fixes no numeric value and none of the claims
depends on it; it is pinned here to an arbitrary constant. -/
def DEDUPLICATION_BUFFER : Nat := 128

/-- `BacklinksQuery::tantivy_query` (backlink.rs lines 124–136). -/
def BacklinksQuery.tantivy_query (node : Nat) (limit : EdgeLimit) : TQuery :=
  match limit with
  | .unlimited => .links node .toId
  | .limit n => .shortCircuit (.links node .toId) (n + DEDUPLICATION_BUFFER)
  | .limitAndOffset n o => .shortCircuit (.links node .toId) (n + o + DEDUPLICATION_BUFFER)

/-- `HostBacklinksQuery::tantivy_query` (backlink.rs lines 215–242). -/
def HostBacklinksQuery.tantivy_query (node : Nat) (limit : EdgeLimit) : TQuery :=
  match limit with
  | .unlimited => .hostLinks node .toHostId .fromHostId
  | .limit n => .shortCircuit (.hostLinks node .toHostId .fromHostId)
      (n + DEDUPLICATION_BUFFER)
  | .limitAndOffset n o => .shortCircuit (.hostLinks node .toHostId .fromHostId)
      (n + o + DEDUPLICATION_BUFFER)

/-- `FullBacklinksQuery::tantivy_query` (backlink.rs lines 327–339); the
node handle resolves to its id before the query is built. -/
def FullBacklinksQuery.tantivy_query (node : Nat) (limit : EdgeLimit) : TQuery :=
  match limit with
  | .unlimited => .links node .toId
  | .limit n => .shortCircuit (.links node .toId) (n + DEDUPLICATION_BUFFER)
  | .limitAndOffset n o => .shortCircuit (.links node .toId) (n + o + DEDUPLICATION_BUFFER)

/-- `FullHostBacklinksQuery::tantivy_query` (backlink.rs lines 408–435),
with the node already resolved to its host id. -/
def FullHostBacklinksQuery.tantivy_query (node : Nat) (limit : EdgeLimit) : TQuery :=
  match limit with
  | .unlimited => .hostLinks node .toHostId .fromHostId
  | .limit n => .shortCircuit (.hostLinks node .toHostId .fromHostId)
      (n + DEDUPLICATION_BUFFER)
  | .limitAndOffset n o => .shortCircuit (.hostLinks node .toHostId .fromHostId)
      (n + o + DEDUPLICATION_BUFFER)

/-- `BacklinksWithLabelsQuery::tantivy_query` (backlink.rs lines 515–517):
the body ignores the configured limit and never wraps the links query. -/
def BacklinksWithLabelsQuery.tantivy_query (node : Nat) (_limit : EdgeLimit) : TQuery :=
  .links node .toId

/-- `ForwardlinksQuery::tantivy_query` (forwardlink.rs lines 63–75). -/
def ForwardlinksQuery.tantivy_query (node : Nat) (limit : EdgeLimit) : TQuery :=
  match limit with
  | .unlimited => .links node .fromId
  | .limit n => .shortCircuit (.links node .fromId) (n + DEDUPLICATION_BUFFER)
  | .limitAndOffset n o => .shortCircuit (.links node .fromId) (n + o + DEDUPLICATION_BUFFER)

/-- `HostForwardlinksQuery::tantivy_query` (forwardlink.rs lines 156–183). -/
def HostForwardlinksQuery.tantivy_query (node : Nat) (limit : EdgeLimit) : TQuery :=
  match limit with
  | .unlimited => .hostLinks node .fromHostId .toHostId
  | .limit n => .shortCircuit (.hostLinks node .fromHostId .toHostId)
      (n + DEDUPLICATION_BUFFER)
  | .limitAndOffset n o => .shortCircuit (.hostLinks node .fromHostId .toHostId)
      (n + o + DEDUPLICATION_BUFFER)

/-- `FullForwardlinksQuery::tantivy_query` (forwardlink.rs lines 268–280). -/
def FullForwardlinksQuery.tantivy_query (node : Nat) (limit : EdgeLimit) : TQuery :=
  match limit with
  | .unlimited => .links node .fromId
  | .limit n => .shortCircuit (.links node .fromId) (n + DEDUPLICATION_BUFFER)
  | .limitAndOffset n o => .shortCircuit (.links node .fromId) (n + o + DEDUPLICATION_BUFFER)

/-- `FullHostForwardlinksQuery::tantivy_query` (forwardlink.rs lines 349–376). -/
def FullHostForwardlinksQuery.tantivy_query (node : Nat) (limit : EdgeLimit) : TQuery :=
  match limit with
  | .unlimited => .hostLinks node .fromHostId .toHostId
  | .limit n => .shortCircuit (.hostLinks node .fromHostId .toHostId)
      (n + DEDUPLICATION_BUFFER)
  | .limitAndOffset n o => .shortCircuit (.hostLinks node .fromHostId .toHostId)
      (n + o + DEDUPLICATION_BUFFER)

/-- The cutoff threshold of a produced query, if it has one. -/
def cutoffOf : TQuery → Option Nat
  | .shortCircuit _ t => some t
  | _ => none

/-- The query with its cutoff wrapper (if any) removed. -/
def stripCutoff : TQuery → TQuery
  | .shortCircuit inner _ => inner
  | tq => tq

/-! ### `filter_fruit_shards` and `merge_results` of the link queries -/

/-- `DocAddress` (webgraph/doc_address.rs): segment ordinal, in-segment doc
id, and the owning shard id, as read by the link queries. -/
structure DocAddress where
  segment_ord : Nat
  doc_id : Nat
  shard_id : Nat
deriving DecidableEq, Repr

/-- `BacklinksQuery::filter_fruit_shards` (backlink.rs lines 171–180): keep
exactly the fruit entries whose document belongs to `shard_id`.  Scores
(`f64` under `total_cmp`) are modelled as `Int`. -/
def BacklinksQuery.filter_fruit_shards (shard_id : Nat) (fruit : List (Int × DocAddress)) :
    List (Int × DocAddress) :=
  fruit.filter (fun p => p.2.shard_id == shard_id)

/-- `ForwardlinksQuery::filter_fruit_shards` (forwardlink.rs lines 88–97). -/
def ForwardlinksQuery.filter_fruit_shards (shard_id : Nat) (fruit : List (Int × DocAddress)) :
    List (Int × DocAddress) :=
  fruit.filter (fun p => p.2.shard_id == shard_id)

/-- `BacklinksQuery::merge_results` (backlink.rs lines 182–186): flatten all
shards' scored edges, stable-sort by score descending (`sort_by` with
`b.total_cmp(a)`), and drop the scores. -/
def BacklinksQuery.merge_results (results : List (List (Int × SmallEdge))) : List SmallEdge :=
  ((results.flatten).mergeSort (fun a b => decide (b.1 ≤ a.1))).map (fun p => p.2)

/-- `ForwardlinksQuery::merge_results` (forwardlink.rs lines 121–125). -/
def ForwardlinksQuery.merge_results (results : List (List (Int × SmallEdge))) : List SmallEdge :=
  ((results.flatten).mergeSort (fun a b => decide (b.1 ≤ a.1))).map (fun p => p.2)

/-! ### `fetch_small_edges` (backlink.rs lines 37–82) -/

/-- Per-segment columnar accessors of the searcher, as consumed by
`fetch_small_edges`: a `u64`/`f64` column value per (segment ordinal, field,
document id), `none` when the document has no value in that column (the
`Column::first` call of the source).  Obtaining the column object itself is
modelled as total, matching the `.unwrap()` on the warmed column fields. -/
structure Searcher where
  u64col : Nat → FieldE → Nat → Option Nat
  f64col : Nat → FieldE → Nat → Option Int

/-- The loop body of `fetch_small_edges`: each document either yields a
`(node id, rel flags, sort score)` triple, or is skipped (`continue`) when
any of the three column values is absent.  The per-segment caching of the
column objects in the source is observationally the identity because the
accessors are pure. -/
def fetchSmallGo (s : Searcher) (f : FieldE) : List DocAddress → List (Nat × Nat × Int)
  | [] => []
  | doc :: rest =>
    match s.u64col doc.segment_ord f doc.doc_id with
    | none => fetchSmallGo s f rest
    | some id =>
      match s.u64col doc.segment_ord .relFlags doc.doc_id with
      | none => fetchSmallGo s f rest
      | some rf =>
        match s.f64col doc.segment_ord .sortScore doc.doc_id with
        | none => fetchSmallGo s f rest
        | some sc => (id, rf, sc) :: fetchSmallGo s f rest

/-- `fetch_small_edges`: sort the addresses by segment ordinal
(`sort_unstable_by_key`, modelled by a stable sort on the same key — the
relative order of addresses with equal segment ordinal is unspecified in the
source and irrelevant to the claims), then run the fetch loop.  The body has
no error path: the result is always `Ok`. -/
def fetch_small_edges (s : Searcher) (doc_ids : List DocAddress) (node_id_field : FieldE) :
    Except String (List (Nat × Nat × Int)) :=
  Except.ok (fetchSmallGo s node_id_field
    (doc_ids.mergeSort (fun a b => decide (a.segment_ord ≤ b.segment_ord))))

/-- Specification-side extractor: the triple a fully-present document
yields, `none` when any of the three column values is missing. -/
def smallEdgeAt (s : Searcher) (f : FieldE) (doc : DocAddress) : Option (Nat × Nat × Int) :=
  match s.u64col doc.segment_ord f doc.doc_id, s.u64col doc.segment_ord .relFlags doc.doc_id,
      s.f64col doc.segment_ord .sortScore doc.doc_id with
  | some id, some rf, some sc => some (id, rf, sc)
  | _, _, _ => none

/-! ### Group-by queries (group_by.rs) and the sketch collector -/

/-- Modelled from the spec: the `HyperLogLog<4096>` approximate distinct
counter (the `hyperloglog` crate is not in scope).  Only its merge structure
matters to the claims: a fixed bank of registers that merge pointwise by
`max`, which makes the merge associative, commutative and idempotent, as the
spec states. -/
structure HyperLogLog where
  regs : List Nat
deriving DecidableEq, Repr

/-- Pointwise maximum of register banks. -/
def regMerge : List Nat → List Nat → List Nat
  | [], ys => ys
  | xs, [] => xs
  | x :: xs, y :: ys => max x y :: regMerge xs ys

def HyperLogLog.merge (a b : HyperLogLog) : HyperLogLog :=
  ⟨regMerge a.regs b.regs⟩

def HyperLogLog.empty : HyperLogLog := ⟨[]⟩

/-- `HostGroupSketchQuery::filter_fruit_shards` (group_by.rs lines 164–170):
the shard id is ignored and the fruit is returned unchanged.  The fruit
(`FxHashMap<u128, HyperLogLog<4096>>`) is modelled as an association list. -/
def HostGroupSketchQuery.filter_fruit_shards (_shard_id : Nat)
    (fruit : List (Nat × HyperLogLog)) : List (Nat × HyperLogLog) :=
  fruit

/-- `HostGroupQuery::filter_fruit_shards` (group_by.rs lines 313–319); the
exact variant's fruit maps a group to a set of `u128` values, modelled as a
list. -/
def HostGroupQuery.filter_fruit_shards (_shard_id : Nat)
    (fruit : List (Nat × List Nat)) : List (Nat × List Nat) :=
  fruit

/-- `HostGroupSketchQuery::merge_results` (group_by.rs lines 180–183):
`results.pop().unwrap_or_default()` — the last intermediate output, or the
empty map when there is none. -/
def HostGroupSketchQuery.merge_results (results : List (List (Nat × HyperLogLog))) :
    List (Nat × HyperLogLog) :=
  (results.getLast?).getD []

/-- `HostGroupQuery::merge_results` (group_by.rs lines 329–331). -/
def HostGroupQuery.merge_results (results : List (List (Nat × List Nat))) :
    List (Nat × List Nat) :=
  (results.getLast?).getD []

/-- The per-entry body of `GroupSketchCollector::merge_fruits`
(group_sketch.rs line 106): `groups.entry(group).or_default().merge(&hll)`. -/
def sketchFold (gs : List (Nat × HyperLogLog)) (p : Nat × HyperLogLog) :
    List (Nat × HyperLogLog) :=
  btInsert gs p.1 (HyperLogLog.merge ((btLookup gs p.1).getD .empty) p.2)

/-- `GroupSketchCollector::merge_fruits` (group_sketch.rs lines 98–111):
fold every per-segment map into an accumulator, merging each group's sketch
into the entry for that group. -/
def GroupSketchCollector.merge_fruits (segment_fruits : List (List (Nat × HyperLogLog))) :
    List (Nat × HyperLogLog) :=
  segment_fruits.foldl (fun groups fruit => fruit.foldl sketchFold groups) []

/-! ## Properties -/

theorem btLookup_insert_self {α : Type} (m : List (Nat × α)) (k : Nat) (v : α) :
    btLookup (btInsert m k v) k = some v := by
  induction m with
  | nil => simp [btInsert, btLookup]
  | cons p rest ih =>
    obtain ⟨k', v'⟩ := p
    by_cases h1 : k < k'
    · simp [btInsert, btLookup, h1]
    · by_cases h2 : k = k'
      · simp [btInsert, btLookup, h1, h2]
      · simp [btInsert, btLookup, h1, h2, ih]

theorem btLookup_insert_ne {α : Type} (m : List (Nat × α)) (k x : Nat) (v : α)
    (hx : x ≠ k) : btLookup (btInsert m k v) x = btLookup m x := by
  induction m with
  | nil => simp [btInsert, btLookup, hx]
  | cons p rest ih =>
    obtain ⟨k', v'⟩ := p
    by_cases h1 : k < k'
    · simp only [btInsert, if_pos h1, btLookup, if_neg hx]
    · by_cases h2 : k = k'
      · subst h2
        simp [btInsert, btLookup, h1, hx]
      · by_cases h3 : x = k'
        · simp [btInsert, btLookup, h1, h2, h3]
        · simp [btInsert, btLookup, h1, h2, h3, ih]

theorem btInsert_mem {α : Type} {m : List (Nat × α)} {k : Nat} {v : α} {x : Nat × α}
    (hx : x ∈ btInsert m k v) : x ∈ m ∨ x = (k, v) := by
  induction m with
  | nil =>
    simp only [btInsert, List.mem_singleton] at hx
    exact Or.inr hx
  | cons p rest ih =>
    obtain ⟨k', v'⟩ := p
    by_cases h1 : k < k'
    · simp only [btInsert, if_pos h1, List.mem_cons] at hx
      rcases hx with h | h | h
      · exact Or.inr h
      · exact Or.inl (List.mem_cons.mpr (Or.inl h))
      · exact Or.inl (List.mem_cons_of_mem _ h)
    · by_cases h2 : k = k'
      · simp only [btInsert, if_neg h1, if_pos h2, List.mem_cons] at hx
        rcases hx with h | h
        · exact Or.inr h
        · exact Or.inl (List.mem_cons_of_mem _ h)
      · simp only [btInsert, if_neg h1, if_neg h2, List.mem_cons] at hx
        rcases hx with h | h
        · exact Or.inl (List.mem_cons.mpr (Or.inl h))
        · rcases ih h with h' | h'
          · exact Or.inl (List.mem_cons_of_mem _ h')
          · exact Or.inr h'

theorem btLookup_mem {α : Type} {m : List (Nat × α)} {k : Nat} {v : α}
    (h : btLookup m k = some v) : (k, v) ∈ m := by
  induction m with
  | nil => simp [btLookup] at h
  | cons p rest ih =>
    obtain ⟨k', v'⟩ := p
    by_cases hk : k = k'
    · simp only [btLookup, if_pos hk] at h
      subst hk
      cases h
      exact List.mem_cons_self _ _
    · simp only [btLookup, if_neg hk] at h
      exact List.mem_cons_of_mem _ (ih h)

/-! ### Queue lemmas -/

theorem pairLe_refl (a : Nat × Nat) : pairLe a a = true := by
  simp [pairLe]

theorem pairLe_trans {a b c : Nat × Nat} (hab : pairLe a b = true)
    (hbc : pairLe b c = true) : pairLe a c = true := by
  simp only [pairLe, Bool.or_eq_true, Bool.and_eq_true, decide_eq_true_eq] at *
  omega

theorem pairLe_total (a b : Nat × Nat) : pairLe a b = true ∨ pairLe b a = true := by
  simp only [pairLe, Bool.or_eq_true, Bool.and_eq_true, decide_eq_true_eq]
  omega

theorem pairLe_cost {a b : Nat × Nat} (h : pairLe a b = true) : a.1 ≤ b.1 := by
  simp only [pairLe, Bool.or_eq_true, Bool.and_eq_true, decide_eq_true_eq] at h
  omega

theorem popMin_none {q : List (Nat × Nat)} (h : popMin q = none) : q = [] := by
  cases q with
  | nil => rfl
  | cons x xs =>
    simp only [popMin] at h
    rcases h' : popMin xs with - | p
    · simp [h'] at h
    · obtain ⟨m, rest⟩ := p
      rw [h'] at h
      by_cases hle : pairLe x m <;> simp [hle] at h

theorem popMin_perm : ∀ {q : List (Nat × Nat)} {m : Nat × Nat} {rest : List (Nat × Nat)},
    popMin q = some (m, rest) → q.Perm (m :: rest) := by
  intro q
  induction q with
  | nil => intro m rest h; simp [popMin] at h
  | cons x xs ih =>
    intro m rest h
    simp only [popMin] at h
    rcases h' : popMin xs with - | p
    · rw [h'] at h
      cases h
      have := popMin_none h'
      subst this
      exact List.Perm.refl _
    · obtain ⟨m', rest'⟩ := p
      rw [h'] at h
      by_cases hle : pairLe x m'
      · simp only [hle, if_true] at h
        cases h
        exact List.Perm.refl _
      · simp only [hle, Bool.false_eq_true, if_false] at h
        cases h
        have hperm := ih h'
        exact (hperm.cons x).trans (List.Perm.swap m x rest')

theorem popMin_min : ∀ {q : List (Nat × Nat)} {m : Nat × Nat} {rest : List (Nat × Nat)},
    popMin q = some (m, rest) → ∀ y ∈ q, pairLe m y = true := by
  intro q
  induction q with
  | nil => intro m rest h; simp [popMin] at h
  | cons x xs ih =>
    intro m rest h y hy
    simp only [popMin] at h
    rcases h' : popMin xs with - | p
    · rw [h'] at h
      cases h
      have := popMin_none h'
      subst this
      simp only [List.mem_singleton] at hy
      subst hy
      exact pairLe_refl _
    · obtain ⟨m', rest'⟩ := p
      rw [h'] at h
      by_cases hle : pairLe x m'
      · simp only [hle, if_true] at h
        cases h
        rcases List.mem_cons.mp hy with rfl | hy'
        · exact pairLe_refl _
        · exact pairLe_trans hle (ih h' y hy')
      · simp only [hle, Bool.false_eq_true, if_false] at h
        cases h
        rcases List.mem_cons.mp hy with rfl | hy'
        · exact (pairLe_total m y).resolve_right hle
        · exact ih h' y hy'

theorem popMin_mem {q : List (Nat × Nat)} {m : Nat × Nat} {rest : List (Nat × Nat)}
    (h : popMin q = some (m, rest)) : m ∈ q :=
  (popMin_perm h).symm.subset (List.mem_cons_self m rest)

theorem popMin_rest_mem {q : List (Nat × Nat)} {m : Nat × Nat} {rest : List (Nat × Nat)}
    (h : popMin q = some (m, rest)) {y : Nat × Nat} (hy : y ∈ rest) : y ∈ q :=
  (popMin_perm h).symm.subset (List.mem_cons_of_mem m hy)

theorem popMin_length {q : List (Nat × Nat)} {m : Nat × Nat} {rest : List (Nat × Nat)}
    (h : popMin q = some (m, rest)) : q.length = rest.length + 1 := by
  simpa using (popMin_perm h).length_eq

/-! ### Lemmas about the edge-relaxation fold -/

theorem relax_cases (en : SmallEdge → Nat) (c : Nat) (acc : List (Nat × Nat) × List (Nat × Nat))
    (e : SmallEdge) :
    (c + 1 < (btLookup acc.2 (en e)).getD U8MAX ∧
      relax en c acc e = ((c + 1, en e) :: acc.1, btInsert acc.2 (en e) (c + 1))) ∨
    (¬ c + 1 < (btLookup acc.2 (en e)).getD U8MAX ∧ relax en c acc e = acc) := by
  by_cases h : c + 1 < (btLookup acc.2 (en e)).getD U8MAX
  · exact Or.inl ⟨h, by simp [relax, h]⟩
  · exact Or.inr ⟨h, by simp [relax, h]⟩

theorem foldRelax_queue_sub (en : SmallEdge → Nat) (c : Nat) :
    ∀ (l : List SmallEdge) (q d : List (Nat × Nat)) (x : Nat × Nat), x ∈ q →
      x ∈ (l.foldl (relax en c) (q, d)).1 := by
  intro l
  induction l with
  | nil => intro q d x hx; simpa using hx
  | cons e l ih =>
    intro q d x hx
    rcases relax_cases en c (q, d) e with ⟨-, heq⟩ | ⟨-, heq⟩
    · simp only [List.foldl_cons, heq]
      exact ih _ _ x (List.mem_cons_of_mem _ hx)
    · simp only [List.foldl_cons, heq]
      exact ih _ _ x hx

theorem foldRelax_lookup (en : SmallEdge → Nat) (c : Nat) :
    ∀ (l : List SmallEdge) (q d : List (Nat × Nat)) (w : Nat),
      btLookup (l.foldl (relax en c) (q, d)).2 w = btLookup d w ∨
      (btLookup (l.foldl (relax en c) (q, d)).2 w = some (c + 1) ∧
        (c + 1, w) ∈ (l.foldl (relax en c) (q, d)).1 ∧
        (∃ e ∈ l, en e = w) ∧ c + 1 < (btLookup d w).getD U8MAX) := by
  intro l
  induction l with
  | nil => intro q d w; exact Or.inl rfl
  | cons e l ih =>
    intro q d w
    rcases relax_cases en c (q, d) e with ⟨hlt, heq⟩ | ⟨-, heq⟩
    · simp only [List.foldl_cons, heq]
      by_cases hw : w = en e
      · have h1 : btLookup (btInsert d (en e) (c + 1)) w = some (c + 1) := by
          rw [hw]; exact btLookup_insert_self d (en e) (c + 1)
        have hlt' : c + 1 < (btLookup d w).getD U8MAX := by rw [hw]; exact hlt
        rcases ih ((c + 1, en e) :: q) (btInsert d (en e) (c + 1)) w with h | h
        · refine Or.inr ⟨h.trans h1, ?_, ⟨e, List.mem_cons_self _ _, hw.symm⟩, hlt'⟩
          have : (c + 1, w) ∈ (c + 1, en e) :: q := by rw [hw]; exact List.mem_cons_self _ _
          exact foldRelax_queue_sub en c l _ _ _ this
        · refine Or.inr ⟨h.1, h.2.1, ⟨e, List.mem_cons_self _ _, hw.symm⟩, hlt'⟩
      · have h1 : btLookup (btInsert d (en e) (c + 1)) w = btLookup d w :=
          btLookup_insert_ne d (en e) w (c + 1) hw
        rcases ih ((c + 1, en e) :: q) (btInsert d (en e) (c + 1)) w with h | h
        · exact Or.inl (h.trans h1)
        · refine Or.inr ⟨h.1, h.2.1, ?_, by rw [← h1]; exact h.2.2.2⟩
          obtain ⟨e', he', hee⟩ := h.2.2.1
          exact ⟨e', List.mem_cons_of_mem _ he', hee⟩
    · simp only [List.foldl_cons, heq]
      rcases ih q d w with h | h
      · exact Or.inl h
      · refine Or.inr ⟨h.1, h.2.1, ?_, h.2.2.2⟩
        obtain ⟨e', he', hee⟩ := h.2.2.1
        exact ⟨e', List.mem_cons_of_mem _ he', hee⟩

theorem foldRelax_getD_le (en : SmallEdge → Nat) (c : Nat) (l : List SmallEdge)
    (q d : List (Nat × Nat)) (w : Nat) :
    (btLookup (l.foldl (relax en c) (q, d)).2 w).getD U8MAX ≤
      (btLookup d w).getD U8MAX := by
  rcases foldRelax_lookup en c l q d w with h | h
  · rw [h]
  · rw [h.1]
    exact Nat.le_of_lt h.2.2.2

theorem foldRelax_present (en : SmallEdge → Nat) (c : Nat) (l : List SmallEdge)
    (q d : List (Nat × Nat)) (w dd : Nat) (h : btLookup d w = some dd) :
    ∃ d₁, btLookup (l.foldl (relax en c) (q, d)).2 w = some d₁ ∧ d₁ ≤ dd := by
  rcases foldRelax_lookup en c l q d w with h' | h'
  · exact ⟨dd, h'.trans h, Nat.le_refl _⟩
  · refine ⟨c + 1, h'.1, ?_⟩
    have := h'.2.2.2
    rw [h] at this
    exact Nat.le_of_lt this

theorem foldRelax_queue_mem (en : SmallEdge → Nat) (c : Nat) :
    ∀ (l : List SmallEdge) (q d : List (Nat × Nat)) (x : Nat × Nat),
      x ∈ (l.foldl (relax en c) (q, d)).1 →
      x ∈ q ∨ (x.1 = c + 1 ∧ btLookup (l.foldl (relax en c) (q, d)).2 x.2 = some (c + 1) ∧
        ∃ e ∈ l, en e = x.2) := by
  intro l
  induction l with
  | nil => intro q d x hx; exact Or.inl (by simpa using hx)
  | cons e l ih =>
    intro q d x hx
    rcases relax_cases en c (q, d) e with ⟨hlt, heq⟩ | ⟨-, heq⟩
    · simp only [List.foldl_cons, heq] at hx ⊢
      rcases ih _ _ x hx with hq | hrest
      · rcases List.mem_cons.mp hq with rfl | hq'
        · refine Or.inr ⟨rfl, ?_, ⟨e, List.mem_cons_self _ _, rfl⟩⟩
          have h1 : btLookup (btInsert d (en e) (c + 1)) (en e) = some (c + 1) :=
            btLookup_insert_self d (en e) (c + 1)
          rcases foldRelax_lookup en c l ((c + 1, en e) :: q)
              (btInsert d (en e) (c + 1)) (en e) with h | h
          · exact h.trans h1
          · exact h.1
        · exact Or.inl hq'
      · refine Or.inr ⟨hrest.1, hrest.2.1, ?_⟩
        obtain ⟨e', he', hee⟩ := hrest.2.2
        exact ⟨e', List.mem_cons_of_mem _ he', hee⟩
    · simp only [List.foldl_cons, heq] at hx ⊢
      rcases ih _ _ x hx with hq | hrest
      · exact Or.inl hq
      · refine Or.inr ⟨hrest.1, hrest.2.1, ?_⟩
        obtain ⟨e', he', hee⟩ := hrest.2.2
        exact ⟨e', List.mem_cons_of_mem _ he', hee⟩

theorem foldRelax_edge_relaxed (en : SmallEdge → Nat) (c : Nat) :
    ∀ (l : List SmallEdge) (q d : List (Nat × Nat)) (e : SmallEdge), e ∈ l →
      (btLookup (l.foldl (relax en c) (q, d)).2 (en e)).getD U8MAX ≤ c + 1 := by
  intro l
  induction l with
  | nil => intro q d e he; simp at he
  | cons e₀ l ih =>
    intro q d e he
    rcases List.mem_cons.mp he with rfl | he'
    · rcases relax_cases en c (q, d) e with ⟨hlt, heq⟩ | ⟨hge, heq⟩
      · simp only [List.foldl_cons, heq]
        have h1 : btLookup (btInsert d (en e) (c + 1)) (en e) = some (c + 1) :=
          btLookup_insert_self d (en e) (c + 1)
        have h2 := foldRelax_getD_le en c l ((c + 1, en e) :: q)
          (btInsert d (en e) (c + 1)) (en e)
        rw [h1] at h2
        simpa using h2
      · simp only [List.foldl_cons, heq]
        have hge' : ¬ c + 1 < (btLookup d (en e)).getD U8MAX := hge
        have h2 := foldRelax_getD_le en c l q d (en e)
        omega
    · rcases relax_cases en c (q, d) e₀ with ⟨-, heq⟩ | ⟨-, heq⟩
      · simp only [List.foldl_cons, heq]
        exact ih _ _ e he'
      · simp only [List.foldl_cons, heq]
        exact ih _ _ e he'

theorem initDist_lookup (S : List Nat) (v : Nat) :
    btLookup (initDist S) v = if v ∈ S then some 0 else none := by
  have main : ∀ (S' : List Nat) (m : List (Nat × Nat)),
      btLookup (S'.foldl (fun m s => btInsert m s 0) m) v =
        if v ∈ S' then some 0 else btLookup m v := by
    intro S'
    induction S' with
    | nil => intro m; simp
    | cons s S' ih =>
      intro m
      by_cases hv : v ∈ s :: S'
      · rcases List.mem_cons.mp hv with rfl | hv'
        · by_cases hv2 : v ∈ S'
          · simp [ih, hv2, hv]
          · simp only [List.foldl_cons, ih, hv2, if_false, if_pos hv]
            exact btLookup_insert_self m v 0
        · simp [ih, hv', hv]
      · have hv1 : v ≠ s := fun h => hv (List.mem_cons.mpr (Or.inl h))
        have hv2 : v ∉ S' := fun h => hv (List.mem_cons_of_mem _ h)
        simp only [List.foldl_cons, ih, hv2, if_false, if_neg hv]
        exact btLookup_insert_ne m s v 0 hv1
  simpa [initDist] using main S []

theorem phi_insert_lt (V : Finset Nat) (d : List (Nat × Nat)) (w c : Nat)
    (hw : w ∈ V) (hlt : c + 1 < (btLookup d w).getD U8MAX) :
    phi V (btInsert d w (c + 1)) < phi V d := by
  apply Finset.sum_lt_sum
  · intro v hv
    by_cases hvw : v = w
    · subst hvw
      rw [btLookup_insert_self d v (c + 1)]
      simpa using Nat.le_of_lt hlt
    · rw [btLookup_insert_ne d w v (c + 1) hvw]
  · refine ⟨w, hw, ?_⟩
    rw [btLookup_insert_self d w (c + 1)]
    simpa using hlt

theorem foldRelax_measure (en : SmallEdge → Nat) (c : Nat) (V : Finset Nat) :
    ∀ (l : List SmallEdge) (q d : List (Nat × Nat)), (∀ e ∈ l, en e ∈ V) →
      2 * phi V (l.foldl (relax en c) (q, d)).2 + (l.foldl (relax en c) (q, d)).1.length ≤
        2 * phi V d + q.length := by
  intro l
  induction l with
  | nil => intro q d _; simp
  | cons e l ih =>
    intro q d hV
    rcases relax_cases en c (q, d) e with ⟨hlt, heq⟩ | ⟨-, heq⟩
    · simp only [List.foldl_cons, heq]
      have h1 := ih ((c + 1, en e) :: q) (btInsert d (en e) (c + 1))
        (fun e' he' => hV e' (List.mem_cons_of_mem _ he'))
      have h2 : phi V (btInsert d (en e) (c + 1)) < phi V d :=
        phi_insert_lt V d (en e) c (hV e (List.mem_cons_self _ _)) hlt
      simp only [List.length_cons] at h1
      omega
    · simp only [List.foldl_cons, heq]
      exact ih q d (fun e' he' => hV e' (List.mem_cons_of_mem _ he'))

theorem phi_init_le (V : Finset Nat) (S : List Nat) :
    phi V (initDist S) ≤ 255 * V.card := by
  unfold phi
  calc ∑ v ∈ V, (btLookup (initDist S) v).getD U8MAX
      ≤ ∑ _v ∈ V, 255 := by
        apply Finset.sum_le_sum
        intro v _
        rw [initDist_lookup]
        by_cases hv : v ∈ S <;> simp [hv, U8MAX]
    _ = 255 * V.card := by rw [Finset.sum_const, smul_eq_mul, Nat.mul_comm]

theorem DInv_init (g : Nat → List SmallEdge) (en : SmallEdge → Nat) (S : List Nat) :
    DInv g en S [] (initQueue S) (initDist S) := by
  have hlook : ∀ v, btLookup (initDist S) v = if v ∈ S then some 0 else none :=
    initDist_lookup S
  have hsome : ∀ v dd, btLookup (initDist S) v = some dd → v ∈ S ∧ dd = 0 := by
    intro v dd h
    rw [hlook] at h
    by_cases hv : v ∈ S
    · rw [if_pos hv] at h
      cases h
      exact ⟨hv, rfl⟩
    · rw [if_neg hv] at h
      cases h
  refine ⟨?_, ?_, ?_, ?_, ?_, ?_, ?_, ?_, ?_⟩
  · intro v dd h
    obtain ⟨hv, rfl⟩ := hsome v dd h
    exact HasDist.src hv
  · intro v dd h
    obtain ⟨-, rfl⟩ := hsome v dd h
    omega
  · intro x hx
    obtain ⟨s, -, rfl⟩ := List.mem_map.mp hx
    exact Nat.zero_le _
  · intro s hs
    rw [hlook, if_pos hs]
  · intro x hx
    obtain ⟨s, hs, rfl⟩ := List.mem_map.mp hx
    exact ⟨0, by rw [hlook, if_pos hs], Nat.le_refl _⟩
  · intro v hv; cases hv
  · intro v hv; cases hv
  · intro v hv; cases hv
  · intro v dd h _
    obtain ⟨hv, rfl⟩ := hsome v dd h
    exact List.mem_map.mpr ⟨v, hv, rfl⟩

theorem DInv_key {g : Nat → List SmallEdge} {en : SmallEdge → Nat} {S T : List Nat}
    {q d : List (Nat × Nat)} (inv : DInv g en S T q d) {c v : Nat}
    {rest : List (Nat × Nat)} (hpop : popMin q = some ((c, v), rest)) :
    ∀ u k, HasDist g en S u k → k < c → ∃ dd, btLookup d u = some dd ∧ dd ≤ k := by
  have hc254 : c ≤ 254 := inv.qbound (c, v) (popMin_mem hpop)
  intro u k hd
  induction hd with
  | src hs => exact fun _ => ⟨0, inv.srcZero _ hs, Nat.zero_le _⟩
  | @step u' k' e hd' he ih =>
    intro hk
    obtain ⟨du, hldu, hdule⟩ := ih (by omega)
    by_cases hT : u' ∈ T
    · have hrel := inv.settled_nbr u' hT du hldu e he (by omega)
      obtain ⟨dw, hldw, hdwle⟩ := hrel
      exact ⟨dw, hldw, by omega⟩
    · have hmem := inv.pending u' du hldu hT
      have hmin := popMin_min hpop (du, u') hmem
      have := pairLe_cost hmin
      omega

theorem DInv_pop_eq {g : Nat → List SmallEdge} {en : SmallEdge → Nat} {S T : List Nat}
    {q d : List (Nat × Nat)} (inv : DInv g en S T q d) {c v : Nat}
    {rest : List (Nat × Nat)} (hpop : popMin q = some ((c, v), rest))
    (hfresh : ¬ c > (btLookup d v).getD U8MAX) : btLookup d v = some c := by
  obtain ⟨dd, hdd, hle⟩ := inv.qdist (c, v) (popMin_mem hpop)
  have : (btLookup d v).getD U8MAX = dd := by rw [hdd]; rfl
  rw [hdd]
  congr 1
  omega

theorem DInv_skip {g : Nat → List SmallEdge} {en : SmallEdge → Nat} {S T : List Nat}
    {q d : List (Nat × Nat)} (inv : DInv g en S T q d) {c v : Nat}
    {rest : List (Nat × Nat)} (hpop : popMin q = some ((c, v), rest))
    (hstale : c > (btLookup d v).getD U8MAX) : DInv g en S T rest d := by
  refine ⟨inv.sound, inv.dbound, ?_, inv.srcZero, ?_, inv.settled_some,
    inv.settled_min, inv.settled_nbr, ?_⟩
  · exact fun x hx => inv.qbound x (popMin_rest_mem hpop hx)
  · exact fun x hx => inv.qdist x (popMin_rest_mem hpop hx)
  · intro w dd hw hT
    have hmem := inv.pending w dd hw hT
    rcases List.mem_cons.mp ((popMin_perm hpop).subset hmem) with heq | hrest
    · exfalso
      have h1 : dd = c ∧ w = v := by
        have := Prod.mk.injEq dd w c v ▸ heq
        exact ⟨congrArg Prod.fst heq, congrArg Prod.snd heq⟩
      obtain ⟨rfl, rfl⟩ := h1
      have : (btLookup d w).getD U8MAX = dd := by rw [hw]; rfl
      omega
    · exact hrest

theorem DInv_expand {g : Nat → List SmallEdge} {en : SmallEdge → Nat} {S T : List Nat}
    {q d : List (Nat × Nat)} (inv : DInv g en S T q d) {c v : Nat}
    {rest : List (Nat × Nat)} (hpop : popMin q = some ((c, v), rest))
    (hfresh : ¬ c > (btLookup d v).getD U8MAX) :
    DInv g en S (v :: T) ((g v).foldl (relax en c) (rest, d)).1
      ((g v).foldl (relax en c) (rest, d)).2 := by
  have hlv : btLookup d v = some c := DInv_pop_eq inv hpop hfresh
  have hc254 : c ≤ 254 := inv.qbound _ (popMin_mem hpop)
  have hHv : HasDist g en S v c := inv.sound v c hlv
  have hvmin : ∀ k, HasDist g en S v k → c ≤ k := by
    intro k hk
    by_contra hlt
    push_neg at hlt
    obtain ⟨dd, hdd, hddle⟩ := DInv_key inv hpop v k hk hlt
    rw [hlv] at hdd
    cases hdd
    omega
  have hlv1 : btLookup ((g v).foldl (relax en c) (rest, d)).2 v = some c := by
    rcases foldRelax_lookup en c (g v) rest d v with h | h
    · rw [h, hlv]
    · exfalso
      have := h.2.2.2
      rw [hlv] at this
      simp only [Option.getD_some] at this
      omega
  have hsound1 : ∀ w dd, btLookup ((g v).foldl (relax en c) (rest, d)).2 w = some dd →
      HasDist g en S w dd := by
    intro w dd h
    rcases foldRelax_lookup en c (g v) rest d w with h' | h'
    · rw [h'] at h
      exact inv.sound w dd h
    · rw [h'.1] at h
      cases h
      obtain ⟨e, he, hew⟩ := h'.2.2.1
      exact hew ▸ HasDist.step hHv he
  have hdb1 : ∀ w dd, btLookup ((g v).foldl (relax en c) (rest, d)).2 w = some dd →
      dd ≤ 254 := by
    intro w dd h
    rcases foldRelax_lookup en c (g v) rest d w with h' | h'
    · rw [h'] at h
      exact inv.dbound w dd h
    · rw [h'.1] at h
      cases h
      have hx := h'.2.2.2
      rcases hld : btLookup d w with - | x
      · rw [hld] at hx
        simp only [Option.getD_none, U8MAX] at hx
        omega
      · rw [hld] at hx
        have := inv.dbound w x hld
        simp only [Option.getD_some] at hx
        omega
  have hT_unchanged : ∀ w ∈ T,
      btLookup ((g v).foldl (relax en c) (rest, d)).2 w = btLookup d w := by
    intro w hw
    rcases foldRelax_lookup en c (g v) rest d w with h' | h'
    · exact h'
    · exfalso
      obtain ⟨ddo, hddo⟩ := inv.settled_some w hw
      have hmin := inv.settled_min w hw ddo hddo (c + 1) (hsound1 w (c + 1) h'.1)
      have := h'.2.2.2
      rw [hddo] at this
      simp only [Option.getD_some] at this
      omega
  refine ⟨hsound1, hdb1, ?_, ?_, ?_, ?_, ?_, ?_, ?_⟩
  · intro x hx
    rcases foldRelax_queue_mem en c (g v) rest d x hx with hr | hnew
    · exact inv.qbound x (popMin_rest_mem hpop hr)
    · have := hdb1 x.2 (c + 1) hnew.2.1
      omega
  · intro s hs
    obtain ⟨d', hld', hle⟩ := foldRelax_present en c (g v) rest d s 0 (inv.srcZero s hs)
    have : d' = 0 := Nat.le_zero.mp hle
    subst this
    exact hld'
  · intro x hx
    rcases foldRelax_queue_mem en c (g v) rest d x hx with hr | hnew
    · obtain ⟨dd, hdd, hle⟩ := inv.qdist x (popMin_rest_mem hpop hr)
      obtain ⟨dd', hdd', hle'⟩ := foldRelax_present en c (g v) rest d x.2 dd hdd
      exact ⟨dd', hdd', by omega⟩
    · exact ⟨c + 1, hnew.2.1, Nat.le_of_eq hnew.1.symm⟩
  · intro w hw
    rcases List.mem_cons.mp hw with rfl | hwT
    · exact ⟨c, hlv1⟩
    · obtain ⟨dd, hdd⟩ := inv.settled_some w hwT
      exact ⟨dd, (hT_unchanged w hwT).trans hdd⟩
  · intro w hw dd hdd k hk
    rcases List.mem_cons.mp hw with rfl | hwT
    · rw [hlv1] at hdd
      cases hdd
      exact hvmin k hk
    · rw [hT_unchanged w hwT] at hdd
      exact inv.settled_min w hwT dd hdd k hk
  · intro w hw dd hdd e he hdd254
    rcases List.mem_cons.mp hw with rfl | hwT
    · rw [hlv1] at hdd
      cases hdd
      have hrel := foldRelax_edge_relaxed en c (g w) rest d e he
      rcases hld : btLookup ((g w).foldl (relax en c) (rest, d)).2 (en e) with - | dw
      · rw [hld] at hrel
        simp only [Option.getD_none, U8MAX] at hrel
        omega
      · rw [hld] at hrel
        simp only [Option.getD_some] at hrel
        exact ⟨dw, rfl, by omega⟩
    · rw [hT_unchanged w hwT] at hdd
      obtain ⟨dw, hdw, hdwle⟩ := inv.settled_nbr w hwT dd hdd e he hdd254
      obtain ⟨dw', hdw', hle'⟩ := foldRelax_present en c (g v) rest d (en e) dw hdw
      exact ⟨dw', hdw', by omega⟩
  · intro w dd hdd hwT
    have hwv : w ≠ v := fun h => hwT (h ▸ List.mem_cons_self v T)
    have hwT' : w ∉ T := fun h => hwT (List.mem_cons_of_mem v h)
    rcases foldRelax_lookup en c (g v) rest d w with h' | h'
    · rw [h'] at hdd
      have hmem := inv.pending w dd hdd hwT'
      rcases List.mem_cons.mp ((popMin_perm hpop).subset hmem) with heq | hr
      · exact absurd (congrArg Prod.snd heq) hwv
      · exact foldRelax_queue_sub en c (g v) rest d (dd, w) hr
    · rw [h'.1] at hdd
      cases hdd
      exact h'.2.1

theorem DInv_drained {g : Nat → List SmallEdge} {en : SmallEdge → Nat} {S T : List Nat}
    {d : List (Nat × Nat)} (inv : DInv g en S T [] d) :
    ∀ v k, HasDist g en S v k → k ≤ 254 → ∃ dd, btLookup d v = some dd ∧ dd ≤ k := by
  intro v k hd
  induction hd with
  | src hs => exact fun _ => ⟨0, inv.srcZero _ hs, Nat.le_refl 0⟩
  | @step u' k' e hd' he ih =>
    intro hk
    obtain ⟨du, hldu, hdule⟩ := ih (by omega)
    have hT : u' ∈ T := by
      by_contra hT
      have := inv.pending u' du hldu hT
      simp at this
    obtain ⟨dw, hldw, hdwle⟩ := inv.settled_nbr u' hT du hldu e he (by omega)
    exact ⟨dw, hldw, by omega⟩

theorem DInv_final {g : Nat → List SmallEdge} {en : SmallEdge → Nat} {S T : List Nat}
    {d : List (Nat × Nat)} (inv : DInv g en S T [] d) :
    (∀ v dd, btLookup d v = some dd → HasDist g en S v dd ∧ dd ≤ 254) ∧
    (∀ v, (∃ k, HasDist g en S v k) →
      sInf {k | HasDist g en S v k} ≤ 254 →
      btLookup d v = some (sInf {k | HasDist g en S v k})) := by
  constructor
  · exact fun v dd h => ⟨inv.sound v dd h, inv.dbound v dd h⟩
  · intro v hreach hle
    have hmem : sInf {k | HasDist g en S v k} ∈ {k | HasDist g en S v k} :=
      Nat.sInf_mem hreach
    obtain ⟨dd, hdd, hddle⟩ := DInv_drained inv v _ hmem hle
    have h2 : sInf {k | HasDist g en S v k} ≤ dd := Nat.sInf_le (inv.sound v dd hdd)
    have h3 : dd = sInf {k | HasDist g en S v k} := by omega
    rw [hdd, h3]

/-! ### Unfolding equations for single loop iterations -/

theorem dstep_pop_none {g : Nat → List SmallEdge} {en : SmallEdge → Nat}
    {md : Option Nat} {q d : List (Nat × Nat)} (hpop : popMin q = none) :
    dstep g en md q d = .done d := by
  simp [dstep, hpop]

theorem dstep_stale {g : Nat → List SmallEdge} {en : SmallEdge → Nat}
    {md : Option Nat} {q d : List (Nat × Nat)} {c v : Nat} {rest : List (Nat × Nat)}
    (hpop : popMin q = some ((c, v), rest))
    (h : c > (btLookup d v).getD U8MAX) : dstep g en md q d = .next rest d := by
  simp [dstep, hpop, h]

theorem dstep_bound_ret {g : Nat → List SmallEdge} {en : SmallEdge → Nat}
    {md : Option Nat} {q d : List (Nat × Nat)} {c v : Nat} {rest : List (Nat × Nat)}
    (hpop : popMin q = some ((c, v), rest))
    (h1 : ¬ c > (btLookup d v).getD U8MAX) (h2 : maxExceeded md c = true) :
    dstep g en md q d = .done d := by
  simp [dstep, hpop, h1, h2]

theorem dstep_expand {g : Nat → List SmallEdge} {en : SmallEdge → Nat}
    {md : Option Nat} {q d : List (Nat × Nat)} {c v : Nat} {rest : List (Nat × Nat)}
    (hpop : popMin q = some ((c, v), rest))
    (h1 : ¬ c > (btLookup d v).getD U8MAX) (h2 : maxExceeded md c = false) :
    dstep g en md q d = .next ((g v).foldl (relax en c) (rest, d)).1
      ((g v).foldl (relax en c) (rest, d)).2 := by
  simp [dstep, hpop, h1, h2]

/-! ### Main correctness of the unbounded run -/

theorem dijkstra_loop_correct (g : Nat → List SmallEdge) (en : SmallEdge → Nat)
    (S : List Nat) (V : Finset Nat) (hV : ∀ v, ∀ e ∈ g v, en e ∈ V) :
    ∀ fuel q d T, DInv g en S T q d → 2 * phi V d + q.length ≤ fuel →
      (∀ v dd, btLookup (dijkstraLoop g en none fuel q d) v = some dd →
        HasDist g en S v dd ∧ dd ≤ 254) ∧
      (∀ v, (∃ k, HasDist g en S v k) →
        sInf {k | HasDist g en S v k} ≤ 254 →
        btLookup (dijkstraLoop g en none fuel q d) v =
          some (sInf {k | HasDist g en S v k})) := by
  intro fuel
  induction fuel with
  | zero =>
    intro q d T inv hm
    have hq : q = [] := List.length_eq_zero.mp (by omega)
    subst hq
    exact DInv_final inv
  | succ fuel ih =>
    intro q d T inv hm
    rcases hpop : popMin q with - | p
    · have hq : q = [] := popMin_none hpop
      subst hq
      have heq : dijkstraLoop g en none (fuel + 1) [] d = d := rfl
      rw [heq]
      exact DInv_final inv
    · obtain ⟨⟨c, v⟩, rest⟩ := p
      by_cases hstale : c > (btLookup d v).getD U8MAX
      · have heq : dijkstraLoop g en none (fuel + 1) q d =
            dijkstraLoop g en none fuel rest d := by
          simp only [dijkstraLoop, dstep_stale hpop hstale]
        rw [heq]
        refine ih rest d T (DInv_skip inv hpop hstale) ?_
        have := popMin_length hpop
        omega
      · have hmax : maxExceeded none c = false := rfl
        have heq : dijkstraLoop g en none (fuel + 1) q d =
            dijkstraLoop g en none fuel ((g v).foldl (relax en c) (rest, d)).1
              ((g v).foldl (relax en c) (rest, d)).2 := by
          simp only [dijkstraLoop, dstep_expand hpop hstale hmax]
        rw [heq]
        refine ih _ _ (v :: T) (DInv_expand inv hpop hstale) ?_
        have hm' := foldRelax_measure en c V (g v) rest d (fun e he => hV v e he)
        have := popMin_length hpop
        omega

theorem dijkstra_multi_none_correct (g : Nat → List SmallEdge) (en : SmallEdge → Nat)
    (S : List Nat) (V : Finset Nat) (hV : ∀ v, ∀ e ∈ g v, en e ∈ V)
    (fuel : Nat) (hfuel : 510 * V.card + S.length ≤ fuel) :
    (∀ v dd, btLookup (dijkstra_multi S g en none fuel) v = some dd →
      HasDist g en S v dd ∧ dd ≤ 254) ∧
    (∀ v, (∃ k, HasDist g en S v k) →
      sInf {k | HasDist g en S v k} ≤ 254 →
      btLookup (dijkstra_multi S g en none fuel) v =
        some (sInf {k | HasDist g en S v k})) := by
  have hμ : 2 * phi V (initDist S) + (initQueue S).length ≤ fuel := by
    have h1 := phi_init_le V S
    have h2 : (initQueue S).length = S.length := List.length_map S _
    omega
  exact dijkstra_loop_correct g en S V hV fuel (initQueue S) (initDist S) []
    (DInv_init g en S) hμ

/-! ### Inversion of a continuing step, and states reachable within a run -/

theorem dstep_next_cases {g : Nat → List SmallEdge} {en : SmallEdge → Nat}
    {md : Option Nat} {q d q₂ d₂ : List (Nat × Nat)}
    (h : dstep g en md q d = .next q₂ d₂) :
    ∃ c v rest, popMin q = some ((c, v), rest) ∧
      ((c > (btLookup d v).getD U8MAX ∧ q₂ = rest ∧ d₂ = d) ∨
       (¬ c > (btLookup d v).getD U8MAX ∧ maxExceeded md c = false ∧
         q₂ = ((g v).foldl (relax en c) (rest, d)).1 ∧
         d₂ = ((g v).foldl (relax en c) (rest, d)).2)) := by
  rcases hpop : popMin q with - | ⟨⟨c, v⟩, rest⟩
  · rw [dstep_pop_none hpop] at h
    cases h
  · by_cases hstale : c > (btLookup d v).getD U8MAX
    · rw [dstep_stale hpop hstale] at h
      cases h
      exact ⟨c, v, _, rfl, Or.inl ⟨hstale, rfl, rfl⟩⟩
    · cases hmax : maxExceeded md c with
      | false =>
        rw [dstep_expand hpop hstale hmax] at h
        cases h
        exact ⟨c, v, _, rfl, Or.inr ⟨hstale, hmax, rfl, rfl⟩⟩
      | true =>
        rw [dstep_bound_ret hpop hstale hmax] at h
        cases h

theorem DReaches_inv {g : Nat → List SmallEdge} {en : SmallEdge → Nat}
    {md : Option Nat} {S : List Nat} {q d : List (Nat × Nat)}
    (hr : DReaches g en md (initQueue S) (initDist S) q d) :
    ∃ T, DInv g en S T q d := by
  induction hr with
  | refl => exact ⟨[], DInv_init g en S⟩
  | tail hr' hstep ih =>
    obtain ⟨T, inv⟩ := ih
    obtain ⟨c, v, rest, hpop, hcases⟩ := dstep_next_cases hstep
    rcases hcases with ⟨hstale, rfl, rfl⟩ | ⟨hfresh, -, rfl, rfl⟩
    · exact ⟨T, DInv_skip inv hpop hstale⟩
    · exact ⟨v :: T, DInv_expand inv hpop hfresh⟩

theorem dijkstra_loop_result_inv (g : Nat → List SmallEdge) (en : SmallEdge → Nat)
    (md : Option Nat) (S : List Nat) :
    ∀ fuel q d T, DInv g en S T q d →
      ∃ T' q', DInv g en S T' q' (dijkstraLoop g en md fuel q d) := by
  intro fuel
  induction fuel with
  | zero => exact fun q d T inv => ⟨T, q, inv⟩
  | succ fuel ih =>
    intro q d T inv
    rcases hstep : dstep g en md q d with d' | ⟨q', d'⟩
    · have heq : dijkstraLoop g en md (fuel + 1) q d = d' := by
        simp only [dijkstraLoop, hstep]
      rw [heq]
      have hd' : d' = d := by
        rcases hpop : popMin q with - | ⟨⟨c, v⟩, rest⟩
        · rw [dstep_pop_none hpop] at hstep
          cases hstep
          rfl
        · by_cases hstale : c > (btLookup d v).getD U8MAX
          · rw [dstep_stale hpop hstale] at hstep
            cases hstep
          · cases hmax : maxExceeded md c with
            | false =>
              rw [dstep_expand hpop hstale hmax] at hstep
              cases hstep
            | true =>
              rw [dstep_bound_ret hpop hstale hmax] at hstep
              cases hstep
              rfl
      subst hd'
      exact ⟨T, q, inv⟩
    · have heq : dijkstraLoop g en md (fuel + 1) q d = dijkstraLoop g en md fuel q' d' := by
        simp only [dijkstraLoop, hstep]
      rw [heq]
      obtain ⟨c, v, rest, hpop, hcases⟩ := dstep_next_cases hstep
      rcases hcases with ⟨hstale, rfl, rfl⟩ | ⟨hfresh, -, rfl, rfl⟩
      · exact ih _ _ T (DInv_skip inv hpop hstale)
      · exact ih _ _ (v :: T) (DInv_expand inv hpop hfresh)

theorem dijkstra_multi_sound (g : Nat → List SmallEdge) (en : SmallEdge → Nat)
    (md : Option Nat) (S : List Nat) (fuel : Nat) :
    ∀ v dd, btLookup (dijkstra_multi S g en md fuel) v = some dd →
      HasDist g en S v dd ∧ dd ≤ 254 := by
  obtain ⟨T', q', inv⟩ := dijkstra_loop_result_inv g en md S fuel
    (initQueue S) (initDist S) [] (DInv_init g en S)
  exact fun v dd h => ⟨inv.sound v dd h, inv.dbound v dd h⟩

theorem dstep_done_eq {g : Nat → List SmallEdge} {en : SmallEdge → Nat}
    {md : Option Nat} {q d d' : List (Nat × Nat)}
    (h : dstep g en md q d = .done d') : d' = d := by
  rcases hpop : popMin q with - | ⟨⟨c, v⟩, rest⟩
  · rw [dstep_pop_none hpop] at h
    cases h
    rfl
  · by_cases hstale : c > (btLookup d v).getD U8MAX
    · rw [dstep_stale hpop hstale] at h
      cases h
    · cases hmax : maxExceeded md c with
      | false =>
        rw [dstep_expand hpop hstale hmax] at h
        cases h
      | true =>
        rw [dstep_bound_ret hpop hstale hmax] at h
        cases h
        rfl

/-! ### Every recorded distance in a bounded run is at most `max_dist + 1` -/

theorem dijkstra_loop_bounded (g : Nat → List SmallEdge) (en : SmallEdge → Nat) (md : Nat) :
    ∀ fuel q d, (∀ v dd, btLookup d v = some dd → dd ≤ md + 1) →
      ∀ v dd, btLookup (dijkstraLoop g en (some md) fuel q d) v = some dd → dd ≤ md + 1 := by
  intro fuel
  induction fuel with
  | zero => exact fun q d h => h
  | succ fuel ih =>
    intro q d hd
    rcases hstep : dstep g en (some md) q d with d' | ⟨q', d'⟩
    · have heq : dijkstraLoop g en (some md) (fuel + 1) q d = d' := by
        simp only [dijkstraLoop, hstep]
      rw [heq, dstep_done_eq hstep]
      exact hd
    · have heq : dijkstraLoop g en (some md) (fuel + 1) q d =
          dijkstraLoop g en (some md) fuel q' d' := by
        simp only [dijkstraLoop, hstep]
      rw [heq]
      obtain ⟨c, v, rest, hpop, hcases⟩ := dstep_next_cases hstep
      rcases hcases with ⟨hstale, rfl, rfl⟩ | ⟨hfresh, hmax, rfl, rfl⟩
      · exact ih _ _ hd
      · refine ih _ _ ?_
        have hc : c ≤ md := by
          simp only [maxExceeded, decide_eq_false_iff_not, Nat.not_lt] at hmax
          exact hmax
        intro w dd hw
        rcases foldRelax_lookup en c (g v) rest d w with h' | h'
        · rw [h'] at hw
          exact hd w dd hw
        · rw [h'.1] at hw
          cases hw
          omega

theorem dijkstra_multi_bounded (g : Nat → List SmallEdge) (en : SmallEdge → Nat)
    (S : List Nat) (md fuel : Nat) :
    ∀ v dd, btLookup (dijkstra_multi S g en (some md) fuel) v = some dd → dd ≤ md + 1 := by
  apply dijkstra_loop_bounded
  intro v dd h
  rw [initDist_lookup] at h
  by_cases hv : v ∈ S
  · rw [if_pos hv] at h
    cases h
    omega
  · rw [if_neg hv] at h
    cases h

theorem QLB_step {g : Nat → List SmallEdge} {en : SmallEdge → Nat} {md : Option Nat}
    {q d q₂ d₂ : List (Nat × Nat)} {c v : Nat}
    (hstep : dstep g en md q d = .next q₂ d₂) (hq : QLB c v q d) : QLB c v q₂ d₂ := by
  obtain ⟨c₀, v₀, rest, hpop, hcases⟩ := dstep_next_cases hstep
  rcases hcases with ⟨hstale, rfl, rfl⟩ | ⟨hfresh, hmax, rfl, rfl⟩
  · exact ⟨fun x hx => hq.1 x (popMin_rest_mem hpop hx), hq.2⟩
  · have hc₀ : c ≤ c₀ := hq.1 (c₀, v₀) (popMin_mem hpop)
    constructor
    · intro x hx
      rcases foldRelax_queue_mem en c₀ (g v₀) rest d x hx with hr | hnew
      · exact hq.1 x (popMin_rest_mem hpop hr)
      · rw [hnew.1]
        omega
    · rcases foldRelax_lookup en c₀ (g v₀) rest d v with h' | h'
      · rw [h']
        exact hq.2
      · exfalso
        have := h'.2.2.2
        rw [hq.2] at this
        simp only [Option.getD_some] at this
        omega

theorem QLB_reaches {g : Nat → List SmallEdge} {en : SmallEdge → Nat} {md : Option Nat}
    {q d q' d' : List (Nat × Nat)} {c v : Nat}
    (hr : DReaches g en md q d q' d') (hq : QLB c v q d) : QLB c v q' d' := by
  induction hr with
  | refl => exact hq
  | tail hr' hstep ih => exact QLB_step hstep ih

theorem expand_freezes {g : Nat → List SmallEdge} {en : SmallEdge → Nat} {md : Option Nat}
    {q d : List (Nat × Nat)} {c v : Nat} {rest : List (Nat × Nat)}
    (hpop : popMin q = some ((c, v), rest)) (hlv : btLookup d v = some c)
    (hmax : maxExceeded md c = false) :
    dstep g en md q d = .next ((g v).foldl (relax en c) (rest, d)).1
      ((g v).foldl (relax en c) (rest, d)).2 ∧
    QLB c v ((g v).foldl (relax en c) (rest, d)).1
      ((g v).foldl (relax en c) (rest, d)).2 := by
  have hfresh : ¬ c > (btLookup d v).getD U8MAX := by
    rw [hlv]
    simp
  refine ⟨dstep_expand hpop hfresh hmax, ?_, ?_⟩
  · intro x hx
    rcases foldRelax_queue_mem en c (g v) rest d x hx with hr | hnew
    · exact pairLe_cost (popMin_min hpop x (popMin_rest_mem hpop hr))
    · rw [hnew.1]
      omega
  · rcases foldRelax_lookup en c (g v) rest d v with h' | h'
    · rw [h']
      exact hlv
    · exfalso
      have := h'.2.2.2
      rw [hlv] at this
      simp only [Option.getD_some] at this
      omega

/-! ### The 0→1→⋯→255 chain -/

theorem hasDist_chain : ∀ k, k ≤ 255 → HasDist gChain256 (fun e => e.to_) [0] k k := by
  intro k
  induction k with
  | zero => exact fun _ => HasDist.src (List.mem_singleton.mpr rfl)
  | succ k ih =>
    intro hk
    have he : (⟨k, k + 1, 0⟩ : SmallEdge) ∈ gChain256 k := by
      have hlt : k < 255 := by omega
      simp [gChain256, hlt]
    have := HasDist.step (ih (by omega)) he
    simpa using this

theorem chain_dist_eq : ∀ v k, HasDist gChain256 (fun e => e.to_) [0] v k → v = k := by
  intro v k h
  induction h with
  | src hs => simpa using hs
  | @step u' k' e h' he ih =>
    by_cases hu : u' < 255
    · simp only [gChain256, if_pos hu, List.mem_singleton] at he
      subst he
      simpa using ih
    · simp [gChain256, hu] at he

theorem fetchSmallGo_eq_filterMap (s : Searcher) (f : FieldE) :
    ∀ l : List DocAddress, fetchSmallGo s f l = l.filterMap (smallEdgeAt s f) := by
  intro l
  induction l with
  | nil => rfl
  | cons doc rest ih =>
    rcases h1 : s.u64col doc.segment_ord f doc.doc_id with - | id
    · simp [fetchSmallGo, h1, List.filterMap_cons, smallEdgeAt, ih]
    · rcases h2 : s.u64col doc.segment_ord .relFlags doc.doc_id with - | rf
      · simp [fetchSmallGo, h1, h2, List.filterMap_cons, smallEdgeAt, ih]
      · rcases h3 : s.f64col doc.segment_ord .sortScore doc.doc_id with - | sc
        · simp [fetchSmallGo, h1, h2, h3, List.filterMap_cons, smallEdgeAt, ih]
        · simp [fetchSmallGo, h1, h2, h3, List.filterMap_cons, smallEdgeAt, ih]

/-! ### Lemmas about the sketch merge -/

theorem regMerge_self : ∀ r : List Nat, regMerge r r = r := by
  intro r
  induction r with
  | nil => rfl
  | cons x xs ih => simp [regMerge, ih]

theorem HyperLogLog.merge_self (h : HyperLogLog) : h.merge h = h := by
  cases h
  simp [HyperLogLog.merge, regMerge_self]

theorem HyperLogLog.empty_merge (h : HyperLogLog) : HyperLogLog.empty.merge h = h := by
  cases h
  simp [HyperLogLog.merge, HyperLogLog.empty, regMerge]

theorem sketchFold_other (f : List (Nat × HyperLogLog)) :
    ∀ (m : List (Nat × HyperLogLog)) (k : Nat), k ∉ f.map Prod.fst →
      btLookup (f.foldl sketchFold m) k = btLookup m k := by
  induction f with
  | nil => intro m k _; rfl
  | cons p rest ih =>
    intro m k hk
    have hk1 : k ≠ p.1 := fun h => hk (by simp [h])
    have hk2 : k ∉ rest.map Prod.fst := fun h => hk (by simp [h])
    simp only [List.foldl_cons]
    rw [ih _ k hk2]
    exact btLookup_insert_ne m p.1 k _ hk1

theorem sketchFold_first_pass (f : List (Nat × HyperLogLog)) :
    ∀ m : List (Nat × HyperLogLog), (f.map Prod.fst).Nodup →
      (∀ p ∈ f, btLookup m p.1 = none) →
      ∀ p ∈ f, btLookup (f.foldl sketchFold m) p.1 = some p.2 := by
  induction f with
  | nil => intro m _ _ p hp; cases hp
  | cons p₀ rest ih =>
    intro m hnd hnone p hp
    have hnd' : (rest.map Prod.fst).Nodup := (List.nodup_cons.mp hnd).2
    have hp₀nr : p₀.1 ∉ rest.map Prod.fst := (List.nodup_cons.mp hnd).1
    have hm₁ : rest.foldl sketchFold (sketchFold m p₀) =
        (p₀ :: rest).foldl sketchFold m := rfl
    rcases List.mem_cons.mp hp with rfl | hp'
    · rw [← hm₁, sketchFold_other rest _ p.1 hp₀nr]
      unfold sketchFold
      rw [hnone p (List.mem_cons_self _ _)]
      simp only [Option.getD_none]
      rw [HyperLogLog.empty_merge]
      exact btLookup_insert_self m p.1 p.2
    · rw [← hm₁]
      refine ih (sketchFold m p₀) hnd' ?_ p hp'
      intro p' hp'
      have hne : p'.1 ≠ p₀.1 := by
        intro h
        exact hp₀nr (h ▸ List.mem_map.mpr ⟨p', hp', rfl⟩)
      unfold sketchFold
      rw [btLookup_insert_ne m p₀.1 p'.1 _ hne]
      exact hnone p' (List.mem_cons_of_mem _ hp')

theorem sketchFold_second_pass (f : List (Nat × HyperLogLog)) :
    ∀ m : List (Nat × HyperLogLog), (f.map Prod.fst).Nodup →
      (∀ p ∈ f, btLookup m p.1 = some p.2) →
      ∀ x, btLookup (f.foldl sketchFold m) x = btLookup m x := by
  induction f with
  | nil => intro m _ _ x; rfl
  | cons p₀ rest ih =>
    intro m hnd hsome x
    have hnd' : (rest.map Prod.fst).Nodup := (List.nodup_cons.mp hnd).2
    have hm₁ : ∀ y, btLookup (sketchFold m p₀) y = btLookup m y := by
      intro y
      unfold sketchFold
      by_cases hy : y = p₀.1
      · subst hy
        rw [btLookup_insert_self, hsome p₀ (List.mem_cons_self _ _)]
        simp only [Option.getD_some, HyperLogLog.merge_self]
      · exact btLookup_insert_ne m p₀.1 y _ hy
    simp only [List.foldl_cons]
    rw [ih (sketchFold m p₀) hnd' ?_ x, hm₁ x]
    intro p hp
    rw [hm₁ p.1]
    exact hsome p (List.mem_cons_of_mem _ hp)

/-! ### Partitioning a fruit by shard id -/

theorem filter_shards_partition :
    ∀ (shards : List Nat) (fruit : List (Int × DocAddress)), shards.Nodup →
      (∀ p ∈ fruit, p.2.shard_id ∈ shards) →
      ((shards.map (fun s => fruit.filter (fun p => p.2.shard_id == s))).flatten).Perm
        fruit := by
  intro shards
  induction shards with
  | nil =>
    intro fruit _ hcov
    cases fruit with
    | nil => simp
    | cons p l => exact absurd (hcov p (List.mem_cons_self _ _)) (List.not_mem_nil _)
  | cons s shards ih =>
    intro fruit hnd hcov
    have hs_not : s ∉ shards := (List.nodup_cons.mp hnd).1
    have hnd' : shards.Nodup := (List.nodup_cons.mp hnd).2
    have hfilter_eq : ∀ s' ∈ shards,
        fruit.filter (fun p => p.2.shard_id == s') =
          (fruit.filter (fun p => !(p.2.shard_id == s))).filter
            (fun p => p.2.shard_id == s') := by
      intro s' hs'
      have hne : s' ≠ s := fun h => hs_not (h ▸ hs')
      rw [List.filter_filter]
      apply List.filter_congr
      intro p _
      by_cases hp : p.2.shard_id = s'
      · have : p.2.shard_id ≠ s := fun h => hne (by rw [← hp, h])
        simp [hp, this, hne]
      · simp [hp]
    have hmap_eq : shards.map (fun s' => fruit.filter (fun p => p.2.shard_id == s')) =
        shards.map (fun s' => (fruit.filter (fun p => !(p.2.shard_id == s))).filter
          (fun p => p.2.shard_id == s')) := by
      apply List.map_congr_left
      intro s' hs'
      exact hfilter_eq s' hs'
    have hcov' : ∀ p ∈ fruit.filter (fun p => !(p.2.shard_id == s)),
        p.2.shard_id ∈ shards := by
      intro p hp
      obtain ⟨hpf, hps⟩ := List.mem_filter.mp hp
      have := hcov p hpf
      rcases List.mem_cons.mp this with h | h
      · exfalso
        simp only [Bool.not_eq_eq_eq_not, Bool.not_true, beq_eq_false_iff_ne] at hps
        exact hps h
      · exact h
    have hIH := ih (fruit.filter (fun p => !(p.2.shard_id == s))) hnd' hcov'
    simp only [List.map_cons, List.flatten_cons]
    rw [hmap_eq]
    exact ((hIH.append_left (fruit.filter (fun p => p.2.shard_id == s))).trans
      (List.filter_append_perm _ fruit))

/-! ### Sorting by descending score -/

theorem descBool_trans (a b c : Int × SmallEdge) (hab : decide (b.1 ≤ a.1) = true)
    (hbc : decide (c.1 ≤ b.1) = true) : decide (c.1 ≤ a.1) = true := by
  simp only [decide_eq_true_eq] at *
  exact le_trans hbc hab

theorem descBool_total (a b : Int × SmallEdge) :
    (decide (b.1 ≤ a.1) || decide (a.1 ≤ b.1)) = true := by
  simp only [Bool.or_eq_true, decide_eq_true_eq]
  exact (Int.le_total b.1 a.1)

/-! ## Claims -/

/-- C1 counterexample. The claim states that `raw_distances_with_max` from
`a` with `max_dist = 1` on the graph `a→b→c` returns `{a:0, b:1}` only, and
that in general no node in the returned map has a recorded distance above
the bound.  In fact the run returns `{a:0, b:1, c:2}`: `c` is relaxed to
distance `2` while `b` (at the bound) is expanded, and the `cost > max_dist`
early return fires only when `(2, c)` is popped — after `c` is already in
the map with `2 > 1`. -/
theorem shortest_path_max_dist_cex :
    raw_distances_with_max gABC 0 1 100 = [(0, 0), (1, 1), (2, 2)] ∧
    btLookup (raw_distances_with_max gABC 0 1 100) 2 = some 2 ∧ 1 < 2 := by
  decide

/-- C1 (amended): on `a→b→c` with `max_dist = 1`, `raw_distances_with_max`
returns `{a:0, b:1, c:2}`; in general every recorded distance in the map
returned by a bounded run of `dijkstra_multi` is at most `max_dist + 1`
(nodes one hop beyond the bound may be recorded, none farther). -/
theorem shortest_path_max_dist_bound :
    raw_distances_with_max gABC 0 1 100 = [(0, 0), (1, 1), (2, 2)] ∧
    ∀ (S : List Nat) (g : Nat → List SmallEdge) (en : SmallEdge → Nat) (md fuel v dd : Nat),
      btLookup (dijkstra_multi S g en (some md) fuel) v = some dd → dd ≤ md + 1 := by
  refine ⟨by decide, ?_⟩
  intro S g en md fuel v dd h
  exact dijkstra_multi_bounded g en S md fuel v dd h

theorem shortest_path_max_dist_bound_witness : (2 : Nat) ≤ 1 + 1 :=
  shortest_path_max_dist_bound.2 [0] gABC (fun e => e.to_) 1 100 2 2 (by decide)

/-- C6 counterexample. The claim states that every reachable node appears in
the unbounded map with its true hop distance.  On the 256-node chain the
node `255` is reachable at distance `255`, but distances are `u8` values and
an insertion requires `cost + 1 < u8::MAX`, so no node is ever recorded at
distance `255`: node `255` is absent from the result (for a fuel far beyond
what the run needs to drain its queue). -/
theorem shortest_path_unbounded_cex :
    btLookup (raw_distances gChain256 0 200000) 255 = none ∧
    HasDist gChain256 (fun e => e.to_) [0] 255 255 := by
  constructor
  · rcases h : btLookup (raw_distances gChain256 0 200000) 255 with - | dd
    · rfl
    · exfalso
      have hs := dijkstra_multi_sound gChain256 (fun e => e.to_) none [0] 200000 255 dd h
      have heq := chain_dist_eq 255 dd hs.1
      have := hs.2
      omega
  · exact hasDist_chain 255 (Nat.le_refl 255)

/-- C6 (amended): on `a→b→c` the unbounded page-granularity run returns
exactly `{a:0, b:1, c:2}`; in general, for every finite graph (edge targets
inside a finite universe `V`) and enough fuel for the loop to drain, every
node reachable within `254` hops appears with its true shortest hop
distance, every recorded entry is the true distance of a reachable node (so
no unreachable node appears), and every recorded distance is at most `254`
(nodes whose true distance needs the full `u8::MAX` or more are absent). -/
theorem shortest_path_unbounded_correct :
    raw_distances gABC 0 100 = [(0, 0), (1, 1), (2, 2)] ∧
    ∀ (S : List Nat) (g : Nat → List SmallEdge) (en : SmallEdge → Nat)
      (V : Finset Nat) (fuel : Nat),
      (∀ v, ∀ e ∈ g v, en e ∈ V) → 510 * V.card + S.length ≤ fuel →
      ∀ v : Nat,
        ((∃ k, HasDist g en S v k) → sInf {k | HasDist g en S v k} ≤ 254 →
          btLookup (dijkstra_multi S g en none fuel) v =
            some (sInf {k | HasDist g en S v k})) ∧
        (∀ dd, btLookup (dijkstra_multi S g en none fuel) v = some dd →
          HasDist g en S v dd ∧ dd ≤ 254) ∧
        ((¬ ∃ k, HasDist g en S v k) →
          btLookup (dijkstra_multi S g en none fuel) v = none) := by
  refine ⟨by decide, ?_⟩
  intro S g en V fuel hV hfuel v
  obtain ⟨hsound, hcomplete⟩ := dijkstra_multi_none_correct g en S V hV fuel hfuel
  refine ⟨fun hreach hle => hcomplete v hreach hle, fun dd h => hsound v dd h, ?_⟩
  intro hunreach
  rcases h : btLookup (dijkstra_multi S g en none fuel) v with - | dd
  · rfl
  · exact absurd ⟨dd, (hsound v dd h).1⟩ hunreach

theorem shortest_path_unbounded_correct_witness :
    btLookup (dijkstra_multi [0] gABC (fun e => e.to_) none 1600) 1 =
      some (sInf {k | HasDist gABC (fun e => e.to_) [0] 1 k}) := by
  have hV : ∀ v, ∀ e ∈ gABC v, e.to_ ∈ ({0, 1, 2} : Finset Nat) := by
    intro v e he
    unfold gABC at he
    split_ifs at he
    · simp only [List.mem_singleton] at he
      subst he
      decide
    · simp only [List.mem_singleton] at he
      subst he
      decide
    · cases he
  have hd1 : HasDist gABC (fun e => e.to_) [0] 1 1 := by
    have h0 : HasDist gABC (fun e => e.to_) [0] 0 0 := HasDist.src (by simp)
    have := HasDist.step h0 (show (⟨0, 1, 0⟩ : SmallEdge) ∈ gABC 0 by simp [gABC])
    simpa using this
  have hle : sInf {k | HasDist gABC (fun e => e.to_) [0] 1 k} ≤ 254 := by
    have h1 : sInf {k | HasDist gABC (fun e => e.to_) [0] 1 k} ≤ 1 :=
      Nat.sInf_le hd1
    omega
  exact ((shortest_path_unbounded_correct.2 [0] gABC (fun e => e.to_)
    {0, 1, 2} 1600 hV (by decide) 1).1) ⟨1, hd1⟩ hle

/-- C7 counterexample. The claim states that a node popped with cost equal
to its recorded distance is always expanded.  In the bounded run on the
chain `0→1→2→3` with `max_dist = 1`, the state with queue `[(2, 2)]` and
distances `{0:0, 1:1, 2:2}` pops node `2` at cost `2`, equal to its recorded
distance, yet the iteration returns the distance map (`.done`) without
expanding it — node `3` (a neighbour of `2`) never receives a distance in
the whole run. -/
theorem dijkstra_loop_invariants_cex :
    (popMin [(2, 2)] = some ((2, 2), []) ∧
      btLookup [(0, 0), (1, 1), (2, 2)] 2 = some 2) ∧
    dstep gChain4 (fun e => e.to_) (some 1) [(2, 2)] [(0, 0), (1, 1), (2, 2)] =
      .done [(0, 0), (1, 1), (2, 2)] ∧
    btLookup (raw_distances_with_max gChain4 0 1 100) 3 = none := by
  decide

/-- C7 (amended): throughout any execution of the `dijkstra_multi` loop,
(1) a recorded distance never increases across an iteration (an in-loop
insert over an existing entry always stores a strictly smaller value);
(2) a queue entry whose cost exceeds the node's current recorded distance is
skipped: the iteration just drops it, leaving the distance map untouched;
(3) a node popped with cost equal to its recorded distance is expanded with
that distance, and the distance never changes in any later state of the
run — provided the max-distance check does not fire; when it fires the loop
returns immediately without expanding. -/
theorem dijkstra_loop_invariants :
    (∀ (g : Nat → List SmallEdge) (en : SmallEdge → Nat) (md : Option Nat)
      (q d q' d' : List (Nat × Nat)), dstep g en md q d = .next q' d' →
      ∀ w dd, btLookup d w = some dd → ∃ dd', btLookup d' w = some dd' ∧ dd' ≤ dd) ∧
    (∀ (g : Nat → List SmallEdge) (en : SmallEdge → Nat) (md : Option Nat)
      (q d : List (Nat × Nat)) (c v : Nat) (rest : List (Nat × Nat)),
      popMin q = some ((c, v), rest) → c > (btLookup d v).getD U8MAX →
      dstep g en md q d = .next rest d) ∧
    (∀ (g : Nat → List SmallEdge) (en : SmallEdge → Nat) (md : Option Nat)
      (q d : List (Nat × Nat)) (c v : Nat) (rest : List (Nat × Nat)),
      popMin q = some ((c, v), rest) → btLookup d v = some c →
      maxExceeded md c = false →
      dstep g en md q d = .next ((g v).foldl (relax en c) (rest, d)).1
        ((g v).foldl (relax en c) (rest, d)).2 ∧
      ∀ q'' d'', DReaches g en md ((g v).foldl (relax en c) (rest, d)).1
        ((g v).foldl (relax en c) (rest, d)).2 q'' d'' →
        btLookup d'' v = some c) := by
  refine ⟨?_, ?_, ?_⟩
  · intro g en md q d q' d' hstep w dd hw
    obtain ⟨c, v, rest, hpop, hcases⟩ := dstep_next_cases hstep
    rcases hcases with ⟨hstale, rfl, rfl⟩ | ⟨hfresh, hmax, rfl, rfl⟩
    · exact ⟨dd, hw, Nat.le_refl dd⟩
    · exact foldRelax_present en c (g v) rest d w dd hw
  · intro g en md q d c v rest hpop hstale
    exact dstep_stale hpop hstale
  · intro g en md q d c v rest hpop hlv hmax
    obtain ⟨hstep, hqlb⟩ := @expand_freezes g en md q d c v rest hpop hlv hmax
    exact ⟨hstep, fun q'' d'' hr => (QLB_reaches hr hqlb).2⟩

theorem dijkstra_loop_invariants_witness :
    (∃ dd', btLookup [(0, 0), (1, 1)] 0 = some dd' ∧ dd' ≤ 0) ∧
    dstep gABC (fun e => e.to_) none [(1, 0)] [(0, 0)] = .next [] [(0, 0)] ∧
    btLookup ((gABC 0).foldl (relax (fun e => e.to_) 0) ([], [(0, 0)])).2 0 = some 0 := by
  refine ⟨?_, ?_, ?_⟩
  · exact dijkstra_loop_invariants.1 gABC (fun e => e.to_) none [(0, 0)] [(0, 0)]
      [(1, 1)] [(0, 0), (1, 1)] (by decide) 0 0 (by decide)
  · exact dijkstra_loop_invariants.2.1 gABC (fun e => e.to_) none [(1, 0)] [(0, 0)]
      1 0 [] (by decide) (by decide)
  · exact (dijkstra_loop_invariants.2.2 gABC (fun e => e.to_) none [(0, 0)] [(0, 0)]
      0 0 [] (by decide) (by decide) (by decide)).2 _ _ DReaches.refl

/-- C10: throughout any execution of `dijkstra_multi` (any state reachable
from the initial sources state), every queue cost is at most `254`, every
stored distance is at most `254` (in particular for non-source nodes),
every source stays recorded at `0`, and for any popped entry the 8-bit sum
`cost + 1` computed during expansion is at most `u8::MAX = 255`, so it never
overflows. -/
theorem dijkstra_u8_no_overflow :
    ∀ (g : Nat → List SmallEdge) (en : SmallEdge → Nat) (md : Option Nat)
      (S : List Nat) (q d : List (Nat × Nat)),
      DReaches g en md (initQueue S) (initDist S) q d →
      (∀ x ∈ q, x.1 ≤ 254) ∧
      (∀ v dd, btLookup d v = some dd → dd ≤ 254) ∧
      (∀ s ∈ S, btLookup d s = some 0) ∧
      (∀ c v rest, popMin q = some ((c, v), rest) → c + 1 ≤ 255) := by
  intro g en md S q d hr
  obtain ⟨T, inv⟩ := DReaches_inv hr
  refine ⟨inv.qbound, inv.dbound, inv.srcZero, ?_⟩
  intro c v rest hpop
  have := inv.qbound (c, v) (popMin_mem hpop)
  omega

theorem dijkstra_u8_no_overflow_witness :
    (0 : Nat) + 1 ≤ 255 ∧ btLookup (initDist [0]) 0 = some 0 := by
  have h := dijkstra_u8_no_overflow gABC (fun e => e.to_) none [0]
    (initQueue [0]) (initDist [0]) DReaches.refl
  exact ⟨h.2.2.2 0 0 [] (by decide), h.2.2.1 0 (by decide)⟩

/-- C2 counterexample. The claim states that the group-by `merge_results` is
an order-independent union of the per-shard maps.  In fact it is
`results.pop().unwrap_or_default()`: with two shard outputs, one holding
group `1` and one empty, it returns whichever comes last and discards the
other, so permuting the input vector changes the answer and the union is
never formed. -/
theorem group_merge_results_cex :
    HostGroupQuery.merge_results [[(1, [5])], []] = [] ∧
    HostGroupQuery.merge_results [[], [(1, [5])]] = [(1, [5])] ∧
    HostGroupQuery.merge_results [[(1, [5])], []] ≠
      HostGroupQuery.merge_results [[], [(1, [5])]] ∧
    HostGroupSketchQuery.merge_results [[(1, ⟨[3]⟩)], []] = [] ∧
    HostGroupSketchQuery.merge_results [[], [(1, ⟨[3]⟩)]] = [(1, ⟨[3]⟩)] := by
  refine ⟨rfl, rfl, by decide, rfl, rfl⟩

/-- C2 (amended): for both group-by queries, `merge_results` returns the
last per-shard intermediate output of the vector — or the empty map when
the vector is empty — rather than a union of all inputs; it is therefore
order-independent only on vectors of length at most one. -/
theorem group_merge_results_pop_last :
    (∀ (l : List (List (Nat × HyperLogLog))) (m : List (Nat × HyperLogLog)),
      HostGroupSketchQuery.merge_results (l ++ [m]) = m) ∧
    HostGroupSketchQuery.merge_results [] = [] ∧
    (∀ (l : List (List (Nat × List Nat))) (m : List (Nat × List Nat)),
      HostGroupQuery.merge_results (l ++ [m]) = m) ∧
    HostGroupQuery.merge_results [] = [] := by
  refine ⟨?_, rfl, ?_, rfl⟩
  · intro l m
    simp [HostGroupSketchQuery.merge_results, List.getLast?_concat]
  · intro l m
    simp [HostGroupQuery.merge_results, List.getLast?_concat]

/-- C3 counterexample. The claim states that every link-query variant wraps
its links query in a short-circuit cutoff whenever an `EdgeLimit` sets a
limit.  `BacklinksWithLabelsQuery::tantivy_query` ignores its configured
limit entirely and returns the bare `LinksQuery` with no cutoff. -/
theorem tantivy_query_cutoff_cex :
    cutoffOf (BacklinksWithLabelsQuery.tantivy_query 0 (.limit 5)) = none ∧
    BacklinksWithLabelsQuery.tantivy_query 0 (.limit 5) = .links 0 .toId := by
  exact ⟨rfl, rfl⟩

/-- C3 (amended): the eight label-free link-query variants wrap their raw
links query in a short-circuit cutoff of exactly `limit +
DEDUPLICATION_BUFFER` (no offset) or `limit + offset + DEDUPLICATION_BUFFER`
(with offset), never less, and apply no cutoff for `EdgeLimit::Unlimited`;
`BacklinksWithLabelsQuery` is the exception: its `tantivy_query` returns the
bare links query for every `EdgeLimit`, with no cutoff wrapper at all. -/
theorem tantivy_query_cutoff :
    ∀ node n o : Nat,
      (cutoffOf (BacklinksQuery.tantivy_query node (.limit n)) =
          some (n + DEDUPLICATION_BUFFER) ∧
        cutoffOf (BacklinksQuery.tantivy_query node (.limitAndOffset n o)) =
          some (n + o + DEDUPLICATION_BUFFER) ∧
        cutoffOf (BacklinksQuery.tantivy_query node .unlimited) = none ∧
        stripCutoff (BacklinksQuery.tantivy_query node (.limit n)) =
          BacklinksQuery.tantivy_query node .unlimited) ∧
      (cutoffOf (HostBacklinksQuery.tantivy_query node (.limit n)) =
          some (n + DEDUPLICATION_BUFFER) ∧
        cutoffOf (HostBacklinksQuery.tantivy_query node (.limitAndOffset n o)) =
          some (n + o + DEDUPLICATION_BUFFER) ∧
        cutoffOf (HostBacklinksQuery.tantivy_query node .unlimited) = none ∧
        stripCutoff (HostBacklinksQuery.tantivy_query node (.limit n)) =
          HostBacklinksQuery.tantivy_query node .unlimited) ∧
      (cutoffOf (FullBacklinksQuery.tantivy_query node (.limit n)) =
          some (n + DEDUPLICATION_BUFFER) ∧
        cutoffOf (FullBacklinksQuery.tantivy_query node (.limitAndOffset n o)) =
          some (n + o + DEDUPLICATION_BUFFER) ∧
        cutoffOf (FullBacklinksQuery.tantivy_query node .unlimited) = none ∧
        stripCutoff (FullBacklinksQuery.tantivy_query node (.limit n)) =
          FullBacklinksQuery.tantivy_query node .unlimited) ∧
      (cutoffOf (FullHostBacklinksQuery.tantivy_query node (.limit n)) =
          some (n + DEDUPLICATION_BUFFER) ∧
        cutoffOf (FullHostBacklinksQuery.tantivy_query node (.limitAndOffset n o)) =
          some (n + o + DEDUPLICATION_BUFFER) ∧
        cutoffOf (FullHostBacklinksQuery.tantivy_query node .unlimited) = none ∧
        stripCutoff (FullHostBacklinksQuery.tantivy_query node (.limit n)) =
          FullHostBacklinksQuery.tantivy_query node .unlimited) ∧
      (cutoffOf (ForwardlinksQuery.tantivy_query node (.limit n)) =
          some (n + DEDUPLICATION_BUFFER) ∧
        cutoffOf (ForwardlinksQuery.tantivy_query node (.limitAndOffset n o)) =
          some (n + o + DEDUPLICATION_BUFFER) ∧
        cutoffOf (ForwardlinksQuery.tantivy_query node .unlimited) = none ∧
        stripCutoff (ForwardlinksQuery.tantivy_query node (.limit n)) =
          ForwardlinksQuery.tantivy_query node .unlimited) ∧
      (cutoffOf (HostForwardlinksQuery.tantivy_query node (.limit n)) =
          some (n + DEDUPLICATION_BUFFER) ∧
        cutoffOf (HostForwardlinksQuery.tantivy_query node (.limitAndOffset n o)) =
          some (n + o + DEDUPLICATION_BUFFER) ∧
        cutoffOf (HostForwardlinksQuery.tantivy_query node .unlimited) = none ∧
        stripCutoff (HostForwardlinksQuery.tantivy_query node (.limit n)) =
          HostForwardlinksQuery.tantivy_query node .unlimited) ∧
      (cutoffOf (FullForwardlinksQuery.tantivy_query node (.limit n)) =
          some (n + DEDUPLICATION_BUFFER) ∧
        cutoffOf (FullForwardlinksQuery.tantivy_query node (.limitAndOffset n o)) =
          some (n + o + DEDUPLICATION_BUFFER) ∧
        cutoffOf (FullForwardlinksQuery.tantivy_query node .unlimited) = none ∧
        stripCutoff (FullForwardlinksQuery.tantivy_query node (.limit n)) =
          FullForwardlinksQuery.tantivy_query node .unlimited) ∧
      (cutoffOf (FullHostForwardlinksQuery.tantivy_query node (.limit n)) =
          some (n + DEDUPLICATION_BUFFER) ∧
        cutoffOf (FullHostForwardlinksQuery.tantivy_query node (.limitAndOffset n o)) =
          some (n + o + DEDUPLICATION_BUFFER) ∧
        cutoffOf (FullHostForwardlinksQuery.tantivy_query node .unlimited) = none ∧
        stripCutoff (FullHostForwardlinksQuery.tantivy_query node (.limit n)) =
          FullHostForwardlinksQuery.tantivy_query node .unlimited) ∧
      (∀ limit : EdgeLimit,
        BacklinksWithLabelsQuery.tantivy_query node limit = .links node .toId ∧
        cutoffOf (BacklinksWithLabelsQuery.tantivy_query node limit) = none) := by
  intro node n o
  exact ⟨⟨rfl, rfl, rfl, rfl⟩, ⟨rfl, rfl, rfl, rfl⟩, ⟨rfl, rfl, rfl, rfl⟩,
    ⟨rfl, rfl, rfl, rfl⟩, ⟨rfl, rfl, rfl, rfl⟩, ⟨rfl, rfl, rfl, rfl⟩,
    ⟨rfl, rfl, rfl, rfl⟩, ⟨rfl, rfl, rfl, rfl⟩, fun _ => ⟨rfl, rfl⟩⟩

/-- C4: for the page-granularity backlink and forwardlink queries,
`filter_fruit_shards s fruit` keeps exactly the entries whose document
address carries shard id `s`, and over any duplicate-free list of shard ids
covering all entries, the filtered fruits partition the original fruit — a
permutation of it, so nothing is lost and nothing is duplicated. -/
theorem filter_fruit_shards_partition :
    ∀ (s : Nat) (fruit : List (Int × DocAddress)),
      (∀ p, p ∈ BacklinksQuery.filter_fruit_shards s fruit ↔
        p ∈ fruit ∧ p.2.shard_id = s) ∧
      (∀ p, p ∈ ForwardlinksQuery.filter_fruit_shards s fruit ↔
        p ∈ fruit ∧ p.2.shard_id = s) ∧
      ∀ shards : List Nat, shards.Nodup → (∀ p ∈ fruit, p.2.shard_id ∈ shards) →
        ((shards.map (fun sh => BacklinksQuery.filter_fruit_shards sh fruit)).flatten).Perm
          fruit ∧
        ((shards.map (fun sh => ForwardlinksQuery.filter_fruit_shards sh fruit)).flatten).Perm
          fruit := by
  intro s fruit
  refine ⟨?_, ?_, ?_⟩
  · intro p
    simp [BacklinksQuery.filter_fruit_shards, List.mem_filter]
  · intro p
    simp [ForwardlinksQuery.filter_fruit_shards, List.mem_filter]
  · intro shards hnd hcov
    exact ⟨filter_shards_partition shards fruit hnd hcov,
      filter_shards_partition shards fruit hnd hcov⟩

theorem filter_fruit_shards_partition_witness :
    (([0, 1].map (fun sh => BacklinksQuery.filter_fruit_shards sh
      [((1 : Int), ⟨0, 0, 0⟩), ((2 : Int), ⟨0, 1, 1⟩)])).flatten).Perm
      [((1 : Int), ⟨0, 0, 0⟩), ((2 : Int), ⟨0, 1, 1⟩)] :=
  ((filter_fruit_shards_partition 0
    [((1 : Int), ⟨0, 0, 0⟩), ((2 : Int), ⟨0, 1, 1⟩)]).2.2 [0, 1]
    (by decide) (by decide)).1

/-- C5: for the page-granularity link queries, `merge_results` returns the
projection of a permutation of the concatenation of all shards' scored
edges that is sorted by score in descending order (scores compared with the
total order modelling `f64::total_cmp`), and the multiset of returned edges
is invariant under permuting the input vector of shard outputs. -/
theorem merge_results_sorted :
    ∀ results : List (List (Int × SmallEdge)),
      (∃ scored : List (Int × SmallEdge), scored.Perm results.flatten ∧
        scored.Pairwise (fun a b => b.1 ≤ a.1) ∧
        BacklinksQuery.merge_results results = scored.map (fun p => p.2) ∧
        ForwardlinksQuery.merge_results results = scored.map (fun p => p.2)) ∧
      ∀ results' : List (List (Int × SmallEdge)), results.Perm results' →
        (BacklinksQuery.merge_results results).Perm
          (BacklinksQuery.merge_results results') ∧
        (ForwardlinksQuery.merge_results results).Perm
          (ForwardlinksQuery.merge_results results') := by
  have hone : ∀ results : List (List (Int × SmallEdge)),
      (BacklinksQuery.merge_results results).Perm
        (results.flatten.map (fun p => p.2)) := by
    intro results
    exact (List.mergeSort_perm results.flatten (fun a b => decide (b.1 ≤ a.1))).map _
  intro results
  constructor
  · refine ⟨results.flatten.mergeSort (fun a b => decide (b.1 ≤ a.1)),
      List.mergeSort_perm _ _, ?_, rfl, rfl⟩
    have hs := List.sorted_mergeSort descBool_trans descBool_total results.flatten
    exact hs.imp (fun h => by simpa using h)
  · intro results' hperm
    have hflat : (results.flatten).Perm results'.flatten := hperm.flatten
    have h1 : (BacklinksQuery.merge_results results).Perm
        (BacklinksQuery.merge_results results') :=
      ((hone results).trans (hflat.map _)).trans (hone results').symm
    exact ⟨h1, h1⟩

theorem merge_results_sorted_witness :
    (BacklinksQuery.merge_results [[((1 : Int), ⟨0, 1, 0⟩)], [((2 : Int), ⟨1, 2, 0⟩)]]).Perm
      (BacklinksQuery.merge_results [[((2 : Int), ⟨1, 2, 0⟩)], [((1 : Int), ⟨0, 1, 0⟩)]]) :=
  ((merge_results_sorted [[((1 : Int), ⟨0, 1, 0⟩)], [((2 : Int), ⟨1, 2, 0⟩)]]).2
    [[((2 : Int), ⟨1, 2, 0⟩)], [((1 : Int), ⟨0, 1, 0⟩)]]
    (List.Perm.swap _ _ _)).1

/-- C8: `fetch_small_edges` never fails because an individual document lacks
a column value: for every address list it returns `Ok` with, as a multiset,
exactly the `(node id, rel flags, sort score)` triples of the addresses
whose three column values are all present (`smallEdgeAt`); in particular an
address with any value absent contributes nothing, and every fully-present
address contributes its triple. -/
theorem fetch_small_edges_skips_missing :
    ∀ (s : Searcher) (docs : List DocAddress) (f : FieldE),
      ∃ edges, fetch_small_edges s docs f = Except.ok edges ∧
        edges.Perm (docs.filterMap (smallEdgeAt s f)) ∧
        ∀ doc ∈ docs, ∀ id rf sc,
          s.u64col doc.segment_ord f doc.doc_id = some id →
          s.u64col doc.segment_ord .relFlags doc.doc_id = some rf →
          s.f64col doc.segment_ord .sortScore doc.doc_id = some sc →
          (id, rf, sc) ∈ edges := by
  intro s docs f
  refine ⟨_, rfl, ?_, ?_⟩
  · rw [fetchSmallGo_eq_filterMap]
    exact (docs.mergeSort_perm _).filterMap _
  · intro doc hdoc id rf sc h1 h2 h3
    rw [fetchSmallGo_eq_filterMap]
    apply List.mem_filterMap.mpr
    refine ⟨doc, ?_, ?_⟩
    · exact ((docs.mergeSort_perm _).mem_iff).mpr hdoc
    · simp [smallEdgeAt, h1, h2, h3]

theorem fetch_small_edges_skips_missing_witness :
    fetch_small_edges ⟨fun _ _ _ => some 7, fun _ _ _ => some 3⟩ [⟨0, 0, 0⟩]
      FieldE.fromId = Except.ok [(7, 7, (3 : Int))] := by
  obtain ⟨edges, heq, hperm, hmem⟩ := fetch_small_edges_skips_missing
    ⟨fun _ _ _ => some 7, fun _ _ _ => some 3⟩ [⟨0, 0, 0⟩] FieldE.fromId
  have : edges = [(7, 7, (3 : Int))] := List.perm_singleton.mp (by simpa [smallEdgeAt] using hperm)
  rw [heq, this]

/-- C9 (implicit): for both group-by queries `filter_fruit_shards` is the
identity — it drops nothing for any shard id — and replica deduplication can
rely on the idempotence of the per-group merge instead: merging the same
per-segment sketch map twice through `GroupSketchCollector::merge_fruits`
yields the same map (pointwise) as merging it once. -/
theorem group_filter_fruit_identity :
    (∀ (shard : Nat) (fruit : List (Nat × HyperLogLog)),
      HostGroupSketchQuery.filter_fruit_shards shard fruit = fruit) ∧
    (∀ (shard : Nat) (fruit : List (Nat × List Nat)),
      HostGroupQuery.filter_fruit_shards shard fruit = fruit) ∧
    (∀ f : List (Nat × HyperLogLog), (f.map Prod.fst).Nodup →
      ∀ x, btLookup (GroupSketchCollector.merge_fruits [f, f]) x =
        btLookup (GroupSketchCollector.merge_fruits [f]) x) := by
  refine ⟨fun _ _ => rfl, fun _ _ => rfl, ?_⟩
  intro f hnd x
  have h1 : GroupSketchCollector.merge_fruits [f] = f.foldl sketchFold [] := rfl
  have h2 : GroupSketchCollector.merge_fruits [f, f] =
      f.foldl sketchFold (f.foldl sketchFold []) := rfl
  rw [h1, h2]
  exact sketchFold_second_pass f (f.foldl sketchFold []) hnd
    (sketchFold_first_pass f [] hnd (fun p _ => rfl)) x

theorem group_filter_fruit_identity_witness :
    btLookup (GroupSketchCollector.merge_fruits
        [[(1, HyperLogLog.mk [3])], [(1, HyperLogLog.mk [3])]]) 1 =
      btLookup (GroupSketchCollector.merge_fruits [[(1, HyperLogLog.mk [3])]]) 1 :=
  group_filter_fruit_identity.2.2 [(1, HyperLogLog.mk [3])] (by decide) 1
